import Mathlib

/-!
Verification development for the CSG cell-definition synthesis engine
(`src/geouned/GEOUNED/core.py`).  The Python data structures and the
functions of `core.py` are shallowly embedded as Lean definitions; the
theorems below settle the specification claims against them.
-/

set_option maxHeartbeats 1000000

namespace Geouned

/-- A cell comment.  `text` is a plain comment string; `voidLine` is the
comment produced by `void.void_comment_line` applied to the comment data and
the rewritten label list.  Modelled from the spec: the serialized comment text
itself is produced by `void.void_comment_line` (module `void`, not under
`src/`); only the data it is applied to matters here, so the constructor keeps
that data. -/
inductive CommentVal where
  | text (s : String)
  | voidLine (c : String) (labels : List Nat)
  | enclosureLine (eid : Int) (isEnd : Bool)
  | voidCellsLine
deriving DecidableEq, Repr

/-- An axis-aligned bounding box (FreeCAD `BoundBox`), with exact rational
coordinates standing for the floating point ones. -/
structure BBox where
  xmin : ℚ
  ymin : ℚ
  zmin : ℚ
  xmax : ℚ
  ymax : ℚ
  zmax : ℚ
deriving DecidableEq, Repr

/-- A boolean cell definition.  Its internal structure is irrelevant to the
claims settled here; all that matters is whether `add_cone_plane` was applied
to it and with which set of signed cone references, so the embedding keeps
definitions abstract (`base`) and records cone patches symbolically. -/
inductive CellDefn where
  | base (n : Nat)
  | withCones (d : CellDefn) (cones : Finset Int)
deriving DecidableEq

/-- Modelled from the spec: `Conv.add_cone_plane` (module
`conversion.cell_definition`, not under `src/`) injects the auxiliary plane
half-spaces for the given set of signed cone references into a cell
definition, mutating it in place.  The embedding records the application
symbolically; the claims only concern which set it is called with. -/
def add_cone_plane (d : CellDefn) (cones : Finset Int) : CellDefn :=
  CellDefn.withCones d cones

/-- The `GeounedSolid` metadata object (class of `utils.functions`, not under
`src/`; fields modelled from the spec and from their uses in `core.py`):
`id` is `__id__`, `label` the final cell label (`None` before numbering),
`nullCell`/`isEnclosure`/`void` the classification flags `NullCell`,
`IsEnclosure` and `Void`, `enclosureID` the enclosure group id, `solids` is
`None` exactly when the CAD solids could not be loaded (spline surfaces),
`bbox` the result of `optimalBoundingBox()`, `commentInfo` is
`__commentInfo__` (comment data together with the optional recorded set of
adjacent identities), `comments` the `Comments` text and `defn` the
`Definition`. -/
structure GeounedSolid where
  id : Int
  label : Option Nat
  nullCell : Bool
  isEnclosure : Bool
  void : Bool
  enclosureID : Int
  solids : Option Unit
  bbox : BBox
  commentInfo : Option (String × Option (List Int))
  comments : CommentVal
  defn : CellDefn
deriving DecidableEq

/-! ## Loading: `skip_solids` deletion (`load_step_file`, lines 330-333)

`for solid_index in sorted(skip_solids, reverse=True): del self.meta_list[solid_index]`
-/

/-- Embedding of `core.py` lines 330-333: the skip indices are sorted in
descending order and the list entry at each index is deleted in turn. -/
def skipDelete (l : List GeounedSolid) (skipSolids : List Nat) : List GeounedSolid :=
  (List.insertionSort (fun a b => a ≥ b) skipSolids).foldl (fun acc i => acc.eraseIdx i) l

/-- Reference function: keep exactly the entries whose position (counted from
`k`) is not in `skip`. -/
def dropAtIndices : List GeounedSolid → Nat → List Nat → List GeounedSolid
  | [], _, _ => []
  | a :: l, k, skip =>
      if k ∈ skip then dropAtIndices l (k + 1) skip
      else a :: dropAtIndices l (k + 1) skip

theorem dropAtIndices_of_all_lt {skip : List Nat} :
    ∀ (t : List GeounedSolid) (k : Nat), (∀ j ∈ skip, j < k) → dropAtIndices t k skip = t := by
  intro t
  induction t with
  | nil => intro k _; rfl
  | cons a t ih =>
      intro k hk
      have hnot : k ∉ skip := fun hmem => absurd (hk k hmem) (lt_irrefl k)
      simp only [dropAtIndices, if_neg hnot]
      rw [ih (k + 1) (fun j hj => Nat.lt_succ_of_lt (hk j hj))]

theorem dropAtIndices_congr {s1 s2 : List Nat} (h : ∀ j, j ∈ s1 ↔ j ∈ s2) :
    ∀ (t : List GeounedSolid) (k : Nat), dropAtIndices t k s1 = dropAtIndices t k s2 := by
  intro t
  induction t with
  | nil => intro k; rfl
  | cons a t ih =>
      intro k
      by_cases hk : k ∈ s1
      · simp only [dropAtIndices, if_pos hk, if_pos ((h k).1 hk), ih]
      · simp only [dropAtIndices, if_neg hk, if_neg (fun hc => hk ((h k).2 hc)), ih]

theorem eraseIdx_dropAtIndices {skip : List Nat} :
    ∀ (t : List GeounedSolid) (k i : Nat), i < t.length → (∀ j ∈ skip, j < k + i) →
      dropAtIndices (t.eraseIdx i) k skip = dropAtIndices t k ((k + i) :: skip) := by
  intro t
  induction t with
  | nil => intro k i hi _; exact absurd hi (by simp)
  | cons a t ih =>
      intro k i hi hsk
      cases i with
      | zero =>
          simp only [List.eraseIdx_cons_zero, Nat.add_zero] at *
          have hmem : k ∈ k :: skip := List.mem_cons_self k skip
          simp only [dropAtIndices, if_pos hmem]
          rw [dropAtIndices_of_all_lt t k hsk,
            dropAtIndices_of_all_lt t (k + 1)
              (by
                intro j hj
                rcases List.mem_cons.mp hj with h | h
                · omega
                · exact Nat.lt_succ_of_lt (hsk j h))]
      | succ i =>
          have hlen : i < t.length := by simpa using hi
          have hne : k ≠ k + (i + 1) := by omega
          have hmem_iff : k ∈ (k + (i + 1)) :: skip ↔ k ∈ skip := by
            simp only [List.mem_cons]
            constructor
            · rintro (h | h)
              · exact absurd h hne
              · exact h
            · exact fun h => Or.inr h
          have hrec := ih (k + 1) i hlen (by intro j hj; have := hsk j hj; omega)
          have harith : k + 1 + i = k + (i + 1) := by omega
          rw [harith] at hrec
          by_cases hk : k ∈ skip
          · simp only [List.eraseIdx_cons_succ, dropAtIndices, if_pos hk,
              if_pos (hmem_iff.mpr hk)]
            exact hrec
          · simp only [List.eraseIdx_cons_succ, dropAtIndices, if_neg hk,
              if_neg (fun hc => hk (hmem_iff.mp hc))]
            rw [hrec]

theorem foldl_eraseIdx_sorted {skip : List Nat} (hsort : skip.Pairwise (· > ·)) :
    ∀ (l : List GeounedSolid), (∀ j ∈ skip, j < l.length) →
      skip.foldl (fun acc i => acc.eraseIdx i) l = dropAtIndices l 0 skip := by
  induction skip with
  | nil => intro l _; exact (dropAtIndices_of_all_lt l 0 (by simp)).symm
  | cons i rest ih =>
      intro l hval
      have hi : i < l.length := hval i (List.mem_cons_self i rest)
      have hrest_lt : ∀ j ∈ rest, j < i := by
        intro j hj
        exact (List.pairwise_cons.mp hsort).1 j hj
      have hrest_sort : rest.Pairwise (· > ·) := (List.pairwise_cons.mp hsort).2
      have hlen : (l.eraseIdx i).length = l.length - 1 := by
        rw [List.length_eraseIdx]
        simp [hi]
      have hval' : ∀ j ∈ rest, j < (l.eraseIdx i).length := by
        intro j hj
        rw [hlen]
        have := hrest_lt j hj
        omega
      have step : (i :: rest).foldl (fun acc i => acc.eraseIdx i) l
          = rest.foldl (fun acc i => acc.eraseIdx i) (l.eraseIdx i) := rfl
      rw [step, ih hrest_sort (l.eraseIdx i) hval',
        eraseIdx_dropAtIndices l 0 i hi (by simpa using hrest_lt)]
      simp

/-- A throwaway concrete solid used by the evaluation theorems. -/
def demoCell (n : Int) : GeounedSolid :=
  { id := n, label := none, nullCell := false, isEnclosure := false, void := false,
    enclosureID := 0, solids := some (), bbox := ⟨0, 0, 0, 1, 1, 1⟩,
    commentInfo := none, comments := CommentVal.text "", defn := CellDefn.base 0 }

/-- C10: for every `skip_solids` argument consisting of distinct valid indices
into the loaded solid list, `load_step_file` removes exactly the solids at
those positions of the originally loaded list (`dropAtIndices`), and the
result is independent of the order in which the indices appear in
`skip_solids`. -/
theorem skipDelete_eq_dropAtIndices (l : List GeounedSolid) (sk : List Nat)
    (hnd : sk.Nodup) (hval : ∀ i ∈ sk, i < l.length) :
    skipDelete l sk = dropAtIndices l 0 sk := by
  have hperm : (List.insertionSort (fun a b => a ≥ b) sk).Perm sk :=
    List.perm_insertionSort _ sk
  have hsorted : (List.insertionSort (fun a b => a ≥ b) sk).Pairwise (· ≥ ·) :=
    List.sorted_insertionSort _ sk
  have hnd2 : (List.insertionSort (fun a b => a ≥ b) sk).Nodup := hperm.nodup_iff.mpr hnd
  have hstrict : (List.insertionSort (fun a b => a ≥ b) sk).Pairwise (· > ·) := by
    have := hsorted.and hnd2
    exact this.imp (fun h => lt_of_le_of_ne h.1 (Ne.symm h.2))
  have hval2 : ∀ j ∈ List.insertionSort (fun a b => a ≥ b) sk, j < l.length := by
    intro j hj
    exact hval j (hperm.mem_iff.mp hj)
  have hfold := foldl_eraseIdx_sorted hstrict l hval2
  rw [skipDelete, hfold]
  exact dropAtIndices_congr (fun j => hperm.mem_iff) l 0

/-- C10: for every `skip_solids` argument consisting of distinct valid indices
into the loaded solid list, `load_step_file` removes exactly the solids at
those positions of the originally loaded list (`dropAtIndices`), and the
result is independent of the order in which the indices appear in
`skip_solids`. -/
theorem prop_C10 (l : List GeounedSolid) (skip : List Nat) (hnd : skip.Nodup)
    (hval : ∀ i ∈ skip, i < l.length) :
    skipDelete l skip = dropAtIndices l 0 skip ∧
      ∀ skip2, skip2.Perm skip → skipDelete l skip2 = skipDelete l skip := by
  refine ⟨skipDelete_eq_dropAtIndices l skip hnd hval, ?_⟩
  intro skip2 hp
  rw [skipDelete_eq_dropAtIndices l skip hnd hval,
    skipDelete_eq_dropAtIndices l skip2 (hp.nodup_iff.mpr hnd)
      (fun i hi => hval i (hp.mem_iff.mp hi))]
  exact dropAtIndices_congr (fun j => hp.mem_iff) l 0

/-- Evaluation of C10 on a concrete three-solid list with skip indices [2, 0]:
the deletion keeps exactly the middle solid, and the reordered skip list
[0, 2] gives the same result. -/
theorem prop_C10_witness :
    skipDelete [demoCell 1, demoCell 2, demoCell 3] [2, 0]
        = dropAtIndices [demoCell 1, demoCell 2, demoCell 3] 0 [2, 0] ∧
      skipDelete [demoCell 1, demoCell 2, demoCell 3] [0, 2]
        = skipDelete [demoCell 1, demoCell 2, demoCell 3] [2, 0] :=
  ⟨(prop_C10 [demoCell 1, demoCell 2, demoCell 3] [2, 0] (by decide) (by decide)).1,
    (prop_C10 [demoCell 1, demoCell 2, demoCell 3] [2, 0] (by decide) (by decide)).2
      [0, 2] (by decide)⟩

/-! ## Loading: joining the per-file metadata lists (`join_meta_lists`, lines 754-763) -/

/-- `meta.__id__ = lastID + i` for `i, meta in enumerate(M)`: renumber the
identities of a chunk consecutively starting at `nextId`. -/
def renumber (nextId : Int) : List GeounedSolid → List GeounedSolid
  | [] => []
  | m :: rest => { m with id := nextId } :: renumber (nextId + 1) rest

/-- The loop of `join_meta_lists`: for each later chunk, compute
`lastID = newMetaList[-1].__id__ + 1`, renumber the chunk from there and
append it.  When the accumulator is empty (never the case on the paths where
the loop runs) the Python expression `newMetaList[-1]` has no value; `0`
stands in. -/
def joinChunks (acc : List GeounedSolid) : List (List GeounedSolid) → List GeounedSolid
  | [] => acc
  | M :: rest =>
      joinChunks (acc ++ renumber (((acc.getLast?).map (fun m => m.id)).getD 0 + 1) M) rest

/-- Embedding of `join_meta_lists` (lines 754-763).  `none` models the
`IndexError` raised by `MList[0]` on an empty argument. -/
def join_meta_lists : List (List GeounedSolid) → Option (List GeounedSolid)
  | [] => none
  | first :: rest => some (if first.isEmpty then first else joinChunks first rest)

/-- The consecutive integers n, n+1, ..., n+k-1. -/
def idRange (n : Int) : Nat → List Int
  | 0 => []
  | k + 1 => n :: idRange (n + 1) k

theorem renumber_append (n : Int) (A B : List GeounedSolid) :
    renumber n (A ++ B) = renumber n A ++ renumber (n + A.length) B := by
  induction A generalizing n with
  | nil => simp [renumber]
  | cons a A ih =>
      have h1 : renumber n ((a :: A) ++ B)
          = { a with id := n } :: renumber (n + 1) (A ++ B) := rfl
      have h2 : renumber n (a :: A) = { a with id := n } :: renumber (n + 1) A := rfl
      rw [h1, h2, ih, List.cons_append, List.length_cons]
      have harg : n + 1 + (A.length : Int) = n + ((A.length + 1 : Nat) : Int) := by
        push_cast
        ring
      rw [harg]

theorem renumber_ids (n : Int) (L : List GeounedSolid) :
    (renumber n L).map (fun m => m.id) = idRange n L.length := by
  induction L generalizing n with
  | nil => rfl
  | cons a L ih =>
      have h1 : renumber n (a :: L) = { a with id := n } :: renumber (n + 1) L := rfl
      rw [h1, List.map_cons, ih]
      rfl

theorem renumber_strip (n : Int) (L : List GeounedSolid) :
    (renumber n L).map (fun m => { m with id := 0 })
      = L.map (fun m => { m with id := 0 }) := by
  induction L generalizing n with
  | nil => rfl
  | cons a L ih =>
      have h1 : renumber n (a :: L) = { a with id := n } :: renumber (n + 1) L := rfl
      rw [h1, List.map_cons, List.map_cons, ih]

theorem renumber_getLast_id (n : Int) (L : List GeounedSolid) (hL : L ≠ []) :
    ((renumber n L).getLast?).map (fun m => m.id) = some (n + L.length - 1) := by
  induction L generalizing n with
  | nil => exact absurd rfl hL
  | cons a L ih =>
      cases L with
      | nil => simp [renumber]
      | cons b L' =>
          have h2 : renumber n (a :: b :: L')
              = { a with id := n } :: renumber (n + 1) (b :: L') := rfl
          have h3 : renumber (n + 1) (b :: L')
              = { b with id := n + 1 } :: renumber (n + 1 + 1) L' := rfl
          rw [h2, h3, List.getLast?_cons_cons, ← h3, ih (n + 1) (by simp)]
          simp only [List.length_cons]
          congr 1
          push_cast
          ring

theorem joinChunks_cons (acc M : List GeounedSolid) (rest : List (List GeounedSolid)) :
    joinChunks acc (M :: rest)
      = joinChunks (acc ++ renumber (((acc.getLast?).map (fun m => m.id)).getD 0 + 1) M) rest :=
  rfl

theorem joinChunks_closed (chunks : List (List GeounedSolid)) :
    ∀ (acc : List GeounedSolid) (mlast : GeounedSolid),
      (acc.getLast?).map (fun m => m.id) = some mlast.id →
      joinChunks acc chunks = acc ++ renumber (mlast.id + 1) chunks.flatten := by
  induction chunks with
  | nil => intro acc mlast _; simp [joinChunks, renumber]
  | cons M rest ih =>
      intro acc mlast hlast
      rw [joinChunks_cons, hlast]
      simp only [Option.getD_some]
      rw [List.flatten_cons, renumber_append, ← List.append_assoc]
      cases hM : M with
      | nil =>
          subst hM
          have hrnil : renumber (mlast.id + 1) ([] : List GeounedSolid) = [] := rfl
          rw [hrnil, List.append_nil]
          simp only [List.length_nil, Nat.cast_zero, add_zero]
          exact ih acc mlast hlast
      | cons m0 M' =>
          rw [← hM]
          have hMne : M ≠ [] := by rw [hM]; simp
          have hrne : renumber (mlast.id + 1) M ≠ [] := by
            rw [hM]
            intro hcon
            exact absurd hcon (by simp [renumber])
          have hlast2 : ((acc ++ renumber (mlast.id + 1) M).getLast?).map (fun m => m.id)
              = some (mlast.id + 1 + M.length - 1) := by
            rw [List.getLast?_append_of_ne_nil acc hrne]
            exact renumber_getLast_id (mlast.id + 1) M hMne
          have hkey := ih (acc ++ renumber (mlast.id + 1) M)
            { demoCell 0 with id := mlast.id + 1 + M.length - 1 } (by simpa using hlast2)
          simp only at hkey
          rw [hkey]
          have harith : mlast.id + 1 + (M.length : Int) - 1 + 1
              = mlast.id + 1 + (M.length : Int) := by ring
          rw [harith]

/-- C9: `join_meta_lists` returns the first file's list extended with all
later files' entries renumbered consecutively from the first list's last
identity plus one, but only when the first list is non-empty; when the first
file's list is empty every later entry is discarded and the result is the
empty list. -/
theorem prop_C9 (first : List GeounedSolid) (rest : List (List GeounedSolid)) :
    (join_meta_lists ([] :: rest) = some []) ∧
      (∀ mlast, first.getLast? = some mlast →
        join_meta_lists (first :: rest)
            = some (first ++ renumber (mlast.id + 1) rest.flatten) ∧
          (renumber (mlast.id + 1) rest.flatten).map (fun m => m.id)
            = idRange (mlast.id + 1) rest.flatten.length ∧
          (renumber (mlast.id + 1) rest.flatten).map (fun m => { m with id := 0 })
            = rest.flatten.map (fun m => { m with id := 0 })) := by
  constructor
  · simp [join_meta_lists]
  · intro mlast hlast
    have hne : first.isEmpty = false := by
      cases first with
      | nil => simp at hlast
      | cons a l => simp
    refine ⟨?_, renumber_ids _ _, renumber_strip _ _⟩
    simp only [join_meta_lists, hne, Bool.false_eq_true, if_false]
    congr 1
    exact joinChunks_closed rest first mlast (by simp [hlast])

/-- Evaluation of C9 on two concrete chunks: with an empty first list
everything is dropped; with first list ending at identity 2 the later chunk
is appended renumbered from identity 3. -/
theorem prop_C9_witness :
    (join_meta_lists ([] :: [[demoCell 7]]) = some []) ∧
      join_meta_lists ([demoCell 1, demoCell 2] :: [[demoCell 7]])
          = some ([demoCell 1, demoCell 2]
              ++ renumber ((demoCell 2).id + 1) [[demoCell 7]].flatten) ∧
        (renumber ((demoCell 2).id + 1) [[demoCell 7]].flatten).map (fun m => m.id)
          = idRange ((demoCell 2).id + 1) [[demoCell 7]].flatten.length ∧
        (renumber ((demoCell 2).id + 1) [[demoCell 7]].flatten).map (fun m => { m with id := 0 })
          = [[demoCell 7]].flatten.map (fun m => { m with id := 0 }) :=
  ⟨(prop_C9 [demoCell 1, demoCell 2] [[demoCell 7]]).1,
    (prop_C9 [demoCell 1, demoCell 2] [[demoCell 7]]).2 (demoCell 2) rfl⟩

/-! ## Loading: spline handling (`load_step_file`, lines 335-342)

The enclosure list is scanned first: any enclosure whose `Solids` is `None`
stops the process (`exit()`), modelled by `Except.error`.  Afterwards every
ordinary solid whose `Solids` is `None` is removed from the solid list. -/

/-- Embedding of `core.py` lines 335-342. -/
def loadFinalize (metaList enclosureList : List GeounedSolid) :
    Except Unit (List GeounedSolid × List GeounedSolid) :=
  if enclosureList.any (fun m => m.solids.isNone) then Except.error ()
  else Except.ok (metaList.filter (fun m => !m.solids.isNone), enclosureList)

/-- C6: an enclosure solid whose `Solids` is `None` (spline surfaces) halts
the run inside `load_step_file`, before the core pipeline (`start`) can run;
an ordinary solid with `Solids` `None` is silently dropped from the solid
list and loading completes normally. -/
theorem prop_C6 (metaList enclosureList : List GeounedSolid) :
    ((∃ e ∈ enclosureList, e.solids = none) →
        loadFinalize metaList enclosureList = Except.error ()) ∧
      ((∀ e ∈ enclosureList, e.solids ≠ none) →
        loadFinalize metaList enclosureList
          = Except.ok (metaList.filter (fun m => !m.solids.isNone), enclosureList)) := by
  constructor
  · rintro ⟨e, he, hnone⟩
    have hany : enclosureList.any (fun m => m.solids.isNone) = true := by
      rw [List.any_eq_true]
      exact ⟨e, he, by rw [hnone]; rfl⟩
    simp [loadFinalize, hany]
  · intro hall
    have hany : enclosureList.any (fun m => m.solids.isNone) = false := by
      rw [List.any_eq_false]
      intro e he
      have := hall e he
      cases hsol : e.solids with
      | none => exact absurd hsol this
      | some u => simp [hsol]
    simp [loadFinalize, hany]

/-- Evaluation of C6: one spline enclosure halts; with clean enclosures a
spline ordinary solid is dropped. -/
theorem prop_C6_witness :
    loadFinalize [demoCell 1] [{ demoCell 9 with isEnclosure := true, solids := none }]
        = Except.error () ∧
      loadFinalize [demoCell 1, { demoCell 2 with solids := none }] [demoCell 9]
        = Except.ok ([demoCell 1], [demoCell 9]) := by
  constructor
  · exact (prop_C6 [demoCell 1] [{ demoCell 9 with isEnclosure := true, solids := none }]).1
      ⟨{ demoCell 9 with isEnclosure := true, solids := none }, by simp, rfl⟩
  · have h := (prop_C6 [demoCell 1, { demoCell 2 with solids := none }] [demoCell 9]).2
      (by decide)
    rw [h]
    rfl

/-! ## Geometry bounding box (`_get_geometry_bounding_box`, lines 366-401) -/

/-- One step of the coordinate-wise min/max accumulation of lines 386-395. -/
def foldBox (b : BBox) (m : GeounedSolid) : BBox :=
  { xmin := min m.bbox.xmin b.xmin, ymin := min m.bbox.ymin b.ymin,
    zmin := min m.bbox.zmin b.zmin, xmax := max m.bbox.xmax b.xmax,
    ymax := max m.bbox.ymax b.ymax, zmax := max m.bbox.zmax b.zmax }

/-- Embedding of `_get_geometry_bounding_box` (lines 366-401): accumulate the
optimal bounding boxes of all loaded solids (enclosures included; the
enclosure skip is commented out in the source) starting from the first
solid's box, then pad every side.  `none` models the `IndexError` of
`meta_list[0]` on an empty list. -/
def get_geometry_bounding_box (metaList : List GeounedSolid) (padding : ℚ) : Option BBox :=
  match metaList with
  | [] => none
  | m0 :: rest =>
      let b := rest.foldl foldBox m0.bbox
      some { xmin := b.xmin - padding, ymin := b.ymin - padding, zmin := b.zmin - padding,
             xmax := b.xmax + padding, ymax := b.ymax + padding, zmax := b.zmax + padding }

theorem foldl_min_le (f : GeounedSolid → ℚ) :
    ∀ (l : List GeounedSolid) (a : ℚ),
      l.foldl (fun acc m => min (f m) acc) a ≤ a ∧
        ∀ m ∈ l, l.foldl (fun acc m => min (f m) acc) a ≤ f m := by
  intro l
  induction l with
  | nil => intro a; exact ⟨le_refl a, by simp⟩
  | cons x l ih =>
      intro a
      have h := ih (min (f x) a)
      have hle : l.foldl (fun acc m => min (f m) acc) (min (f x) a) ≤ min (f x) a := h.1
      refine ⟨le_trans hle (min_le_right _ _), ?_⟩
      intro m hm
      rcases List.mem_cons.mp hm with rfl | hm'
      · exact le_trans hle (min_le_left _ _)
      · exact h.2 m hm'

theorem foldl_min_attained (f : GeounedSolid → ℚ) :
    ∀ (l : List GeounedSolid) (a : ℚ),
      l.foldl (fun acc m => min (f m) acc) a = a ∨
        ∃ m ∈ l, l.foldl (fun acc m => min (f m) acc) a = f m := by
  intro l
  induction l with
  | nil => intro a; exact Or.inl rfl
  | cons x l ih =>
      intro a
      rcases ih (min (f x) a) with h | ⟨m, hm, hmv⟩
      · rcases min_cases (f x) a with ⟨hmin, _⟩ | ⟨hmin, _⟩
        · exact Or.inr ⟨x, List.mem_cons_self x l, by rw [List.foldl_cons, h, hmin]⟩
        · exact Or.inl (by rw [List.foldl_cons, h, hmin])
      · exact Or.inr ⟨m, List.mem_cons_of_mem x hm, hmv⟩

theorem foldl_max_ge (f : GeounedSolid → ℚ) :
    ∀ (l : List GeounedSolid) (a : ℚ),
      a ≤ l.foldl (fun acc m => max (f m) acc) a ∧
        ∀ m ∈ l, f m ≤ l.foldl (fun acc m => max (f m) acc) a := by
  intro l
  induction l with
  | nil => intro a; exact ⟨le_refl a, by simp⟩
  | cons x l ih =>
      intro a
      have h := ih (max (f x) a)
      have hge : max (f x) a ≤ l.foldl (fun acc m => max (f m) acc) (max (f x) a) := h.1
      refine ⟨le_trans (le_max_right _ _) hge, ?_⟩
      intro m hm
      rcases List.mem_cons.mp hm with rfl | hm'
      · exact le_trans (le_max_left _ _) hge
      · exact h.2 m hm'

theorem foldl_max_attained (f : GeounedSolid → ℚ) :
    ∀ (l : List GeounedSolid) (a : ℚ),
      l.foldl (fun acc m => max (f m) acc) a = a ∨
        ∃ m ∈ l, l.foldl (fun acc m => max (f m) acc) a = f m := by
  intro l
  induction l with
  | nil => intro a; exact Or.inl rfl
  | cons x l ih =>
      intro a
      rcases ih (max (f x) a) with h | ⟨m, hm, hmv⟩
      · rcases max_cases (f x) a with ⟨hmax, _⟩ | ⟨hmax, _⟩
        · exact Or.inr ⟨x, List.mem_cons_self x l, by rw [List.foldl_cons, h, hmax]⟩
        · exact Or.inl (by rw [List.foldl_cons, h, hmax])
      · exact Or.inr ⟨m, List.mem_cons_of_mem x hm, hmv⟩

theorem foldBox_proj :
    ∀ (l : List GeounedSolid) (b : BBox),
      (l.foldl foldBox b).xmin = l.foldl (fun acc m => min m.bbox.xmin acc) b.xmin ∧
      (l.foldl foldBox b).ymin = l.foldl (fun acc m => min m.bbox.ymin acc) b.ymin ∧
      (l.foldl foldBox b).zmin = l.foldl (fun acc m => min m.bbox.zmin acc) b.zmin ∧
      (l.foldl foldBox b).xmax = l.foldl (fun acc m => max m.bbox.xmax acc) b.xmax ∧
      (l.foldl foldBox b).ymax = l.foldl (fun acc m => max m.bbox.ymax acc) b.ymax ∧
      (l.foldl foldBox b).zmax = l.foldl (fun acc m => max m.bbox.zmax acc) b.zmax := by
  intro l
  induction l with
  | nil => intro b; exact ⟨rfl, rfl, rfl, rfl, rfl, rfl⟩
  | cons x l ih =>
      intro b
      simpa [foldBox] using ih (foldBox b x)

/-- C7: for a non-empty solid list the computed geometry bounding box has each
minimum coordinate equal to the minimum of that coordinate over all solids'
optimal bounding boxes minus the padding (lower bound plus attainment), each
maximum equal to the maximum plus the padding, and hence encloses every
solid's box — enclosure solids included, since no entry is skipped. -/
theorem prop_C7 (metaList : List GeounedSolid) (padding : ℚ) (B : BBox)
    (h : get_geometry_bounding_box metaList padding = some B) :
    (∀ m ∈ metaList,
        B.xmin ≤ m.bbox.xmin - padding ∧ B.ymin ≤ m.bbox.ymin - padding ∧
        B.zmin ≤ m.bbox.zmin - padding ∧ m.bbox.xmax + padding ≤ B.xmax ∧
        m.bbox.ymax + padding ≤ B.ymax ∧ m.bbox.zmax + padding ≤ B.zmax) ∧
      (∃ ma ∈ metaList, B.xmin = ma.bbox.xmin - padding) ∧
      (∃ ma ∈ metaList, B.ymin = ma.bbox.ymin - padding) ∧
      (∃ ma ∈ metaList, B.zmin = ma.bbox.zmin - padding) ∧
      (∃ ma ∈ metaList, B.xmax = ma.bbox.xmax + padding) ∧
      (∃ ma ∈ metaList, B.ymax = ma.bbox.ymax + padding) ∧
      (∃ ma ∈ metaList, B.zmax = ma.bbox.zmax + padding) := by
  cases metaList with
  | nil => exact absurd h (by simp [get_geometry_bounding_box])
  | cons m0 rest =>
      simp only [get_geometry_bounding_box, Option.some.injEq] at h
      obtain ⟨px, py, pz, qx, qy, qz⟩ := foldBox_proj rest m0.bbox
      subst h
      constructor
      · intro m hm
        rcases List.mem_cons.mp hm with rfl | hm'
        · refine ⟨?_, ?_, ?_, ?_, ?_, ?_⟩ <;>
            simp only [px, py, pz, qx, qy, qz] <;>
            [exact sub_le_sub_right (foldl_min_le _ rest _).1 padding;
             exact sub_le_sub_right (foldl_min_le _ rest _).1 padding;
             exact sub_le_sub_right (foldl_min_le _ rest _).1 padding;
             exact add_le_add_right (foldl_max_ge _ rest _).1 padding;
             exact add_le_add_right (foldl_max_ge _ rest _).1 padding;
             exact add_le_add_right (foldl_max_ge _ rest _).1 padding]
        · refine ⟨?_, ?_, ?_, ?_, ?_, ?_⟩ <;>
            simp only [px, py, pz, qx, qy, qz] <;>
            [exact sub_le_sub_right ((foldl_min_le _ rest _).2 m hm') padding;
             exact sub_le_sub_right ((foldl_min_le _ rest _).2 m hm') padding;
             exact sub_le_sub_right ((foldl_min_le _ rest _).2 m hm') padding;
             exact add_le_add_right ((foldl_max_ge _ rest _).2 m hm') padding;
             exact add_le_add_right ((foldl_max_ge _ rest _).2 m hm') padding;
             exact add_le_add_right ((foldl_max_ge _ rest _).2 m hm') padding]
      · refine ⟨?_, ?_, ?_, ?_, ?_, ?_⟩
        · rcases foldl_min_attained (fun m => m.bbox.xmin) rest m0.bbox.xmin with ha | ⟨m, hm, hv⟩
          · exact ⟨m0, List.mem_cons_self m0 rest, by simp only [px, ha]⟩
          · exact ⟨m, List.mem_cons_of_mem m0 hm, by simp only [px, hv]⟩
        · rcases foldl_min_attained (fun m => m.bbox.ymin) rest m0.bbox.ymin with ha | ⟨m, hm, hv⟩
          · exact ⟨m0, List.mem_cons_self m0 rest, by simp only [py, ha]⟩
          · exact ⟨m, List.mem_cons_of_mem m0 hm, by simp only [py, hv]⟩
        · rcases foldl_min_attained (fun m => m.bbox.zmin) rest m0.bbox.zmin with ha | ⟨m, hm, hv⟩
          · exact ⟨m0, List.mem_cons_self m0 rest, by simp only [pz, ha]⟩
          · exact ⟨m, List.mem_cons_of_mem m0 hm, by simp only [pz, hv]⟩
        · rcases foldl_max_attained (fun m => m.bbox.xmax) rest m0.bbox.xmax with ha | ⟨m, hm, hv⟩
          · exact ⟨m0, List.mem_cons_self m0 rest, by simp only [qx, ha]⟩
          · exact ⟨m, List.mem_cons_of_mem m0 hm, by simp only [qx, hv]⟩
        · rcases foldl_max_attained (fun m => m.bbox.ymax) rest m0.bbox.ymax with ha | ⟨m, hm, hv⟩
          · exact ⟨m0, List.mem_cons_self m0 rest, by simp only [qy, ha]⟩
          · exact ⟨m, List.mem_cons_of_mem m0 hm, by simp only [qy, hv]⟩
        · rcases foldl_max_attained (fun m => m.bbox.zmax) rest m0.bbox.zmax with ha | ⟨m, hm, hv⟩
          · exact ⟨m0, List.mem_cons_self m0 rest, by simp only [qz, ha]⟩
          · exact ⟨m, List.mem_cons_of_mem m0 hm, by simp only [qz, hv]⟩

/-- A concrete enclosure solid for evaluating C7. -/
def demoBoxCell : GeounedSolid :=
  { demoCell 5 with isEnclosure := true, bbox := ⟨0, 0, 0, 1, 1, 1⟩ }

/-- The padded box that `_get_geometry_bounding_box` computes for
`[demoBoxCell]` with padding 10. -/
def demoOutBox : BBox := ⟨0 - 10, 0 - 10, 0 - 10, 1 + 10, 1 + 10, 1 + 10⟩

/-- Evaluation of C7 on a concrete one-enclosure list with padding 10. -/
theorem prop_C7_witness :
    (demoOutBox.xmin ≤ demoBoxCell.bbox.xmin - 10 ∧
        demoOutBox.ymin ≤ demoBoxCell.bbox.ymin - 10 ∧
        demoOutBox.zmin ≤ demoBoxCell.bbox.zmin - 10 ∧
        demoBoxCell.bbox.xmax + 10 ≤ demoOutBox.xmax ∧
        demoBoxCell.bbox.ymax + 10 ≤ demoOutBox.ymax ∧
        demoBoxCell.bbox.zmax + 10 ≤ demoOutBox.zmax) ∧
      (∃ ma ∈ [demoBoxCell], demoOutBox.xmin = ma.bbox.xmin - 10) ∧
      (∃ ma ∈ [demoBoxCell], demoOutBox.ymin = ma.bbox.ymin - 10) ∧
      (∃ ma ∈ [demoBoxCell], demoOutBox.zmin = ma.bbox.zmin - 10) ∧
      (∃ ma ∈ [demoBoxCell], demoOutBox.xmax = ma.bbox.xmax + 10) ∧
      (∃ ma ∈ [demoBoxCell], demoOutBox.ymax = ma.bbox.ymax + 10) ∧
      (∃ ma ∈ [demoBoxCell], demoOutBox.zmax = ma.bbox.zmax + 10) :=
  ⟨(prop_C7 [demoBoxCell] 10 demoOutBox rfl).1 demoBoxCell (by simp),
    (prop_C7 [demoBoxCell] 10 demoOutBox rfl).2⟩

/-! ## Void generation seed (`start`, lines 510-513)

`init = self.meta_list[-1].__id__ - len(self.enclosure_list)` when the solid
list is non-empty, else `init = 0`. -/

/-- Embedding of the seed computation of `core.py` lines 510-513. -/
def voidInit (metaList enclosureList : List GeounedSolid) : Int :=
  match metaList.getLast? with
  | none => 0
  | some m => m.id - enclosureList.length

theorem pairwise_id_lt_getLast (l : List GeounedSolid)
    (hinc : l.Pairwise (fun a b => a.id < b.id)) (m : GeounedSolid) (hm : m ∈ l)
    (mlast : GeounedSolid) (hlast : l.getLast? = some mlast) : m.id ≤ mlast.id := by
  induction l with
  | nil => simp at hm
  | cons a l ih =>
      cases l with
      | nil =>
          simp only [List.mem_singleton] at hm
          simp only [List.getLast?_singleton, Option.some.injEq] at hlast
          rw [hm, hlast]
      | cons b l' =>
          rw [List.getLast?_cons_cons] at hlast
          have hmem_last : mlast ∈ b :: l' := by
            have := List.mem_getLast?_eq_getLast (l := b :: l') (x := mlast)
              (by rw [hlast]; rfl)
            obtain ⟨hne, heq⟩ := this
            rw [heq]
            exact List.getLast_mem hne
          rcases List.mem_cons.mp hm with rfl | hm'
          · exact le_of_lt ((List.pairwise_cons.mp hinc).1 mlast hmem_last)
          · exact ih (List.pairwise_cons.mp hinc).2 hm' hlast

theorem voidInit_eq_of_getLast (l el : List GeounedSolid) (mlast : GeounedSolid)
    (h : l.getLast? = some mlast) : voidInit l el = mlast.id - el.length := by
  simp [voidInit, h]

theorem pairwise_id_head_add_length :
    ∀ (E' : List GeounedSolid) (e : GeounedSolid),
      (e :: E').Pairwise (fun a b => a.id < b.id) →
      ∀ mlast, (e :: E').getLast? = some mlast → e.id + E'.length ≤ mlast.id := by
  intro E'
  induction E' with
  | nil =>
      intro e _ mlast hlast
      simp only [List.getLast?_singleton, Option.some.injEq] at hlast
      simp [hlast]
  | cons b l' ih =>
      intro e hinc mlast hlast
      rw [List.getLast?_cons_cons] at hlast
      have hb := ih b (List.pairwise_cons.mp hinc).2 mlast hlast
      have hab : e.id < b.id := (List.pairwise_cons.mp hinc).1 b (List.mem_cons_self b l')
      simp only [List.length_cons]
      push_cast
      push_cast at hb
      omega

/-- C8: when the loaded list consists of the non-enclosure solids `S` followed
by the enclosure entries `E` (the loader, module `loadfile.load_step` which is
not under `src/`, assigns identities in list order, so identities are strictly
increasing along the list and the enclosure entries come last, one per entry
of `enclosure_list`), the seed `voidInit` passed to void generation satisfies:
every identity of a non-enclosure solid cell is at most the seed, so the void
cell identities `seed + 1` and upward never collide with them.  The seed is
the identity of the last entry minus the number of enclosures, as in lines
510-513. -/
theorem prop_C8 (S E enclosureList : List GeounedSolid)
    (_hS : ∀ s ∈ S, s.isEnclosure = false) (hE : ∀ e ∈ E, e.isEnclosure = true)
    (hinc : (S ++ E).Pairwise (fun a b => a.id < b.id))
    (hlen : E.length = enclosureList.length) :
    (∀ mlast, (S ++ E).getLast? = some mlast →
        voidInit (S ++ E) enclosureList = mlast.id - enclosureList.length) ∧
      ∀ m ∈ S ++ E, m.isEnclosure = false →
        m.id < voidInit (S ++ E) enclosureList + 1 := by
  constructor
  · intro mlast hlast
    exact voidInit_eq_of_getLast (S ++ E) enclosureList mlast hlast
  · intro m hm hmenc
    have hmS : m ∈ S := by
      rcases List.mem_append.mp hm with h | h
      · exact h
      · exact absurd (hE m h) (by rw [hmenc]; simp)
    have hSne : S ≠ [] := by
      intro h
      rw [h] at hmS
      simp at hmS
    cases hEcase : E with
    | nil =>
        subst hEcase
        rw [List.append_nil] at hm hinc ⊢
        have hlen0 : enclosureList.length = 0 := by simpa using hlen.symm
        cases hlastS : S.getLast? with
        | none =>
            rw [List.getLast?_eq_none_iff] at hlastS
            exact absurd hlastS hSne
        | some mlast =>
            have hle := pairwise_id_lt_getLast S hinc m hmS mlast hlastS
            rw [voidInit_eq_of_getLast S enclosureList mlast hlastS, hlen0]
            push_cast
            omega
    | cons e E' =>
        subst hEcase
        have hEne : e :: E' ≠ [] := by simp
        have hlastE : (S ++ e :: E').getLast? = (e :: E').getLast? :=
          List.getLast?_append_of_ne_nil S hEne
        cases hlast : (e :: E').getLast? with
        | none => simp at hlast
        | some mlast =>
            have hEinc : (e :: E').Pairwise (fun a b => a.id < b.id) :=
              (List.pairwise_append.mp hinc).2.1
            have hme : m.id < e.id :=
              (List.pairwise_append.mp hinc).2.2 m hmS e (List.mem_cons_self e E')
            have htail := pairwise_id_head_add_length E' e hEinc mlast hlast
            rw [voidInit_eq_of_getLast (S ++ e :: E') enclosureList mlast
              (by rw [hlastE, hlast])]
            have hlen' : ((E'.length : Int) + 1) = enclosureList.length := by
              rw [← hlen]
              simp only [List.length_cons]
              push_cast
              ring
            push_cast at htail
            omega

/-- A concrete enclosure entry closing the loaded list for the C8 evaluation. -/
def demoC8E : GeounedSolid := { demoCell 3 with isEnclosure := true }

/-- Evaluation of C8 on a concrete list: two solids followed by one enclosure
entry; the seed is the last identity minus one, and solid identity 1 stays
below the first void identity. -/
theorem prop_C8_witness :
    voidInit ([demoCell 1, demoCell 2] ++ [demoC8E]) [demoC8E]
        = demoC8E.id - ([demoC8E] : List GeounedSolid).length ∧
      (demoCell 1).id < voidInit ([demoCell 1, demoCell 2] ++ [demoC8E]) [demoC8E] + 1 :=
  ⟨(prop_C8 [demoCell 1, demoCell 2] [demoC8E] [demoC8E]
      (by decide) (by decide) (by decide) rfl).1 demoC8E rfl,
    (prop_C8 [demoCell 1, demoCell 2] [demoC8E] [demoC8E]
      (by decide) (by decide) (by decide) rfl).2 (demoCell 1) (by decide) rfl⟩

/-! ## Cone post-processing (`process_cones`, lines 691-722)

`coneInfo` is the dict from solid identity to the set of signed cone
references recorded while building that solid's definition; it is embedded as
an association list (`find?` = dict lookup). -/

/-- Dict lookup `coneInfo[i]`, with `Id in cellId` ↔ the result is `some`. -/
def coneLookup (coneInfo : List (Int × Finset Int)) (i : Int) : Option (Finset Int) :=
  (coneInfo.find? (fun p => p.1 == i)).map (fun p => p.2)

/-- One step of `cones.update(-x for x in coneInfo[Id])` guarded by
`if Id in cellId` (lines 701-703). -/
def coneStep (coneInfo : List (Int × Finset Int)) (acc : Finset Int) (Id : Int) : Finset Int :=
  match coneLookup coneInfo Id with
  | some s => acc ∪ s.image (fun x => -x)
  | none => acc

/-- The sign-inverted cone set accumulated over a void cell's recorded
adjacent identities (lines 700-703). -/
def voidConeSet (coneInfo : List (Int × Finset Int)) (ids : List Int) : Finset Int :=
  ids.foldl (coneStep coneInfo) ∅

/-- The per-cell body of the loop of `process_cones` (lines 693-722). -/
def processConesCell (coneInfo : List (Int × Finset Int)) (m : GeounedSolid) : GeounedSolid :=
  if (coneLookup coneInfo m.id).isNone && !m.void then m
  else if m.void then
    match m.commentInfo with
    | none => m
    | some (_, none) => m
    | some (_, some ids) =>
        { m with defn := add_cone_plane m.defn (voidConeSet coneInfo ids) }
  else
    match coneLookup coneInfo m.id with
    | some s => { m with defn := add_cone_plane m.defn s }
    | none => m

/-- Embedding of `process_cones` (lines 691-722): each cell of the list is
processed independently, in order. -/
def process_cones (coneInfo : List (Int × Finset Int)) (MetaList : List GeounedSolid) :
    List GeounedSolid :=
  MetaList.map (processConesCell coneInfo)

theorem coneStep_none {coneInfo : List (Int × Finset Int)} {j : Int}
    (h : coneLookup coneInfo j = none) (acc : Finset Int) :
    coneStep coneInfo acc j = acc := by
  simp [coneStep, h]

theorem coneStep_some {coneInfo : List (Int × Finset Int)} {j : Int} {s : Finset Int}
    (h : coneLookup coneInfo j = some s) (acc : Finset Int) :
    coneStep coneInfo acc j = acc ∪ s.image (fun x => -x) := by
  simp [coneStep, h]

theorem mem_foldl_coneStep (coneInfo : List (Int × Finset Int)) :
    ∀ (ids : List Int) (acc : Finset Int) (x : Int),
      x ∈ ids.foldl (coneStep coneInfo) acc ↔
        x ∈ acc ∨ ∃ i ∈ ids, ∃ s, coneLookup coneInfo i = some s ∧ -x ∈ s := by
  intro ids
  induction ids with
  | nil => intro acc x; simp
  | cons j rest ih =>
      intro acc x
      rw [List.foldl_cons]
      cases hj : coneLookup coneInfo j with
      | none =>
          rw [coneStep_none hj, ih]
          constructor
          · rintro (hacc | ⟨i, hi, s, hs, hx⟩)
            · exact Or.inl hacc
            · exact Or.inr ⟨i, List.mem_cons_of_mem j hi, s, hs, hx⟩
          · rintro (hacc | ⟨i, hi, s, hs, hx⟩)
            · exact Or.inl hacc
            · rcases List.mem_cons.mp hi with rfl | hi'
              · rw [hj] at hs; exact absurd hs (by simp)
              · exact Or.inr ⟨i, hi', s, hs, hx⟩
      | some s0 =>
          rw [coneStep_some hj, ih]
          have himg : x ∈ s0.image (fun y => -y) ↔ -x ∈ s0 := by
            rw [Finset.mem_image]
            constructor
            · rintro ⟨y, hy, rfl⟩
              rw [neg_neg]
              exact hy
            · intro hx
              exact ⟨-x, hx, by rw [neg_neg]⟩
          rw [Finset.mem_union, himg]
          constructor
          · rintro ((hacc | hx) | ⟨i, hi, s, hs, hx⟩)
            · exact Or.inl hacc
            · exact Or.inr ⟨j, List.mem_cons_self j rest, s0, hj, hx⟩
            · exact Or.inr ⟨i, List.mem_cons_of_mem j hi, s, hs, hx⟩
          · rintro (hacc | ⟨i, hi, s, hs, hx⟩)
            · exact Or.inl (Or.inl hacc)
            · rcases List.mem_cons.mp hi with rfl | hi'
              · rw [hj] at hs
                rw [Option.some.injEq] at hs
                exact Or.inl (Or.inr (hs ▸ hx))
              · exact Or.inr ⟨i, hi', s, hs, hx⟩

/-- C2: a void cell with a recorded adjacency list receives exactly the
sign-inverted union of the cone records of those adjacent identities that
have one: its definition is patched with `voidConeSet`, whose members are
characterised below — `x` is applied exactly when some adjacent identity has
a cone record containing `-x`. -/
theorem prop_C2 (coneInfo : List (Int × Finset Int)) (m : GeounedSolid) (c : String)
    (ids : List Int) (hvoid : m.void = true) (hci : m.commentInfo = some (c, some ids)) :
    processConesCell coneInfo m
        = { m with defn := add_cone_plane m.defn (voidConeSet coneInfo ids) } ∧
      ∀ x : Int, x ∈ voidConeSet coneInfo ids ↔
        ∃ i ∈ ids, ∃ s, coneLookup coneInfo i = some s ∧ -x ∈ s := by
  constructor
  · rw [processConesCell]
    rw [hvoid]
    simp only [Bool.not_true, Bool.and_false, Bool.false_eq_true, if_false, if_true, hci]
  · intro x
    rw [voidConeSet, mem_foldl_coneStep]
    simp

/-- A concrete void cell adjacent to solid identities 7 and 9. -/
def demoVoidAdj : GeounedSolid :=
  { demoCell 40 with void := true, commentInfo := some ("c", some [7, 9]) }

/-- Evaluation of C2: a void cell adjacent to solid identity 7 whose cone
record is `{+3}` gets the sign-inverted patch; the membership law is read off
at the patched reference `-3`. -/
theorem prop_C2_witness :
    processConesCell [(7, ({3} : Finset Int))] demoVoidAdj
        = { demoVoidAdj with
            defn := add_cone_plane demoVoidAdj.defn
              (voidConeSet [(7, ({3} : Finset Int))] [7, 9]) } ∧
      ((-3 : Int) ∈ voidConeSet [(7, ({3} : Finset Int))] [7, 9] ↔
        ∃ i ∈ [7, 9], ∃ s, coneLookup [(7, ({3} : Finset Int))] i = some s ∧ -(-3 : Int) ∈ s) :=
  ⟨(prop_C2 [(7, ({3} : Finset Int))] demoVoidAdj "c" [7, 9] rfl rfl).1,
    (prop_C2 [(7, ({3} : Finset Int))] demoVoidAdj "c" [7, 9] rfl rfl).2 (-3)⟩

/-- C5: a void cell with no recorded adjacency (`__commentInfo__` `None`, or
its identity component `None`) is left completely unpatched; an adjacent
identity with no cone record contributes nothing to the patch set (the set
equals the one computed from the present identities only, with no error); and
every cell of the list is processed independently, so processing always
continues over the remaining cells. -/
theorem prop_C5 (coneInfo : List (Int × Finset Int)) :
    (∀ m : GeounedSolid, m.void = true → m.commentInfo = none →
        processConesCell coneInfo m = m) ∧
      (∀ (m : GeounedSolid) (c : String), m.void = true → m.commentInfo = some (c, none) →
        processConesCell coneInfo m = m) ∧
      (∀ ids : List Int, voidConeSet coneInfo ids
        = voidConeSet coneInfo (ids.filter (fun i => (coneLookup coneInfo i).isSome))) ∧
      ∀ MetaList : List GeounedSolid,
        process_cones coneInfo MetaList = MetaList.map (processConesCell coneInfo) := by
  refine ⟨?_, ?_, ?_, fun _ => rfl⟩
  · intro m hvoid hci
    rw [processConesCell, hvoid]
    simp only [Bool.not_true, Bool.and_false, Bool.false_eq_true, if_false, if_true, hci]
  · intro m c hvoid hci
    rw [processConesCell, hvoid]
    simp only [Bool.not_true, Bool.and_false, Bool.false_eq_true, if_false, if_true, hci]
  · intro ids
    apply Finset.ext
    intro x
    rw [voidConeSet, voidConeSet, mem_foldl_coneStep, mem_foldl_coneStep]
    constructor
    · rintro (habs | ⟨i, hi, s, hs, hx⟩)
      · exact absurd habs (by simp)
      · refine Or.inr ⟨i, ?_, s, hs, hx⟩
        rw [List.mem_filter]
        exact ⟨hi, by rw [hs]; rfl⟩
    · rintro (habs | ⟨i, hi, s, hs, hx⟩)
      · exact absurd habs (by simp)
      · exact Or.inr ⟨i, (List.mem_filter.mp hi).1, s, hs, hx⟩

/-- Evaluation of C5 at a concrete cone table and cells. -/
theorem prop_C5_witness :
    (processConesCell [(7, ({3} : Finset Int))] { demoCell 41 with void := true }
        = { demoCell 41 with void := true }) ∧
      (processConesCell [(7, ({3} : Finset Int))]
          { demoCell 42 with void := true, commentInfo := some ("c", none) }
        = { demoCell 42 with void := true, commentInfo := some ("c", none) }) ∧
      (voidConeSet [(7, ({3} : Finset Int))] [5, 99]
        = voidConeSet [(7, ({3} : Finset Int))]
            ([5, 99].filter (fun i => (coneLookup [(7, ({3} : Finset Int))] i).isSome))) ∧
      process_cones [(7, ({3} : Finset Int))] [demoCell 1]
        = [demoCell 1].map (processConesCell [(7, ({3} : Finset Int))]) :=
  ⟨(prop_C5 [(7, ({3} : Finset Int))]).1 { demoCell 41 with void := true } rfl rfl,
    (prop_C5 [(7, ({3} : Finset Int))]).2.1
      { demoCell 42 with void := true, commentInfo := some ("c", none) } "c" rfl rfl,
    (prop_C5 [(7, ({3} : Finset Int))]).2.2.1 [5, 99],
    (prop_C5 [(7, ({3} : Finset Int))]).2.2.2 [demoCell 1]⟩

/-! ## Final numbering

Flat path: `start`, lines 549-592.  Enclosure-grouped path: `sort_enclosure`,
lines 782-846.  The identity-to-label dict is embedded as an association list
onto which new assignments are prepended, so that `find?` (= dict lookup)
returns the most recent assignment, like a Python dict write. -/

/-- Dict lookup `idLabel[i]`; `none` models a `KeyError`. -/
def lookupLabel (idLabel : List (Int × Nat)) (i : Int) : Option Nat :=
  (idLabel.find? (fun p => p.1 == i)).map (fun p => p.2)

/-- Embedding of `update_comment` (lines 682-688): a cell with no recorded
`__commentInfo__`, or with no recorded identity set, is returned unchanged;
otherwise each recorded identity is looked up in `idLabel` and the comment is
rewritten by `void.void_comment_line` to the resulting label list.  `none`
models the `KeyError` raised when an identity is missing from the map. -/
def update_comment (idLabel : List (Int × Nat)) (m : GeounedSolid) : Option GeounedSolid :=
  match m.commentInfo with
  | none => some m
  | some (_, none) => some m
  | some (c, some ids) =>
      (ids.mapM (lookupLabel idLabel)).map
        (fun labels => { m with comments := CommentVal.voidLine c labels })

/-- Modelled from the spec: `UF.GeounedSolid(None)` (module `utils.functions`,
not under `src/`) builds a bare record that carries only a comment; the spec
(§4.6) treats these as delimiter records of the final sequence, outside the
NullCell pruning and never labelled. -/
def mkDelimiter (c : CommentVal) : GeounedSolid :=
  { id := 0, label := none, nullCell := false, isEnclosure := false, void := false,
    enclosureID := 0, solids := none, bbox := ⟨0, 0, 0, 0, 0, 0⟩, commentInfo := none,
    comments := c, defn := CellDefn.base 0 }

/-- The `VOID CELLS` banner record (lines 573-579 / 824-830). -/
def voidDelim : GeounedSolid := mkDelimiter CommentVal.voidCellsLine

/-- The `ENCLOSURE` opening banner record (lines 798-803). -/
def enclosureOpenDelim (eid : Int) : GeounedSolid :=
  mkDelimiter (CommentVal.enclosureLine eid false)

/-- The `END ENCLOSURE` closing banner record (lines 811-816). -/
def enclosureCloseDelim (eid : Int) : GeounedSolid :=
  mkDelimiter (CommentVal.enclosureLine eid true)

/-- First loop of the flat path (lines 558-571): skip (and so delete)
NullCells and enclosures, label the rest sequentially and record the
identity-to-label assignments. -/
def labelCells (offset : Nat) (idl : List (Int × Nat)) :
    List GeounedSolid → List GeounedSolid × List (Int × Nat) × Nat
  | [] => ([], idl, offset)
  | m :: rest =>
      if m.nullCell || m.isEnclosure then labelCells offset idl rest
      else
        let r := labelCells (offset + 1) ((m.id, offset + 1) :: idl) rest
        ({ m with label := some (offset + 1) } :: r.1, r.2.1, r.2.2)

/-- Second loop of the flat path (lines 581-590): skip (delete) NullCells,
label the void cells sequentially and rewrite their comments through the
identity-to-label map built by the first loop. -/
def labelVoids (idLabel : List (Int × Nat)) (offset : Nat) :
    List GeounedSolid → Option (List GeounedSolid × Nat)
  | [] => some ([], offset)
  | m :: rest =>
      if m.nullCell then labelVoids idLabel offset rest
      else
        (update_comment idLabel { m with label := some (offset + 1) }).bind (fun m' =>
          (labelVoids idLabel (offset + 1) rest).map (fun q => (m' :: q.1, q.2)))

/-- Embedding of the flat finalization path of `start` (lines 557-592). -/
def finalizeFlat (metaList metaVoid : List GeounedSolid) (cellOffSet : Nat) :
    Option (List GeounedSolid) :=
  let r := labelCells cellOffSet [(0, 0)] metaList
  (labelVoids r.2.1 r.2.2 metaVoid).map (fun q => r.1 ++ [voidDelim] ++ q.1)

/-- The dict of void cells grouped by `EnclosureID` (lines 784-789), read at
key `k`: the group exists exactly when some void cell has that enclosure id,
and then holds those cells in their original order.  `none` models the
`KeyError` of `newList[k]`. -/
def voidGroup (metaVoid : List GeounedSolid) (k : Int) : Option (List GeounedSolid) :=
  let g := metaVoid.filter (fun v => v.enclosureID == k)
  if g.isEmpty then none else some g

/-- Labelling of one void group (lines 804-810 and 832-838): skip NullCells,
label the rest sequentially, record the assignments. -/
def labelGroup (idl : List (Int × Nat)) (offset : Nat) :
    List GeounedSolid → List GeounedSolid × List (Int × Nat) × Nat
  | [] => ([], idl, offset)
  | e :: rest =>
      if e.nullCell then labelGroup idl offset rest
      else
        let r := labelGroup ((e.id, offset + 1) :: idl) (offset + 1) rest
        ({ e with label := some (offset + 1) } :: r.1, r.2.1, r.2.2)

/-- Main loop of `sort_enclosure` (lines 794-822): NullCells are skipped; an
enclosure entry is replaced by its bracketed, labelled void group (the
enclosure cell itself is not emitted); any other cell is labelled and
emitted. -/
def sortLoop (metaVoid : List GeounedSolid) (idl : List (Int × Nat)) (offset : Nat) :
    List GeounedSolid → Option (List GeounedSolid × List (Int × Nat) × Nat)
  | [] => some ([], idl, offset)
  | m :: rest =>
      if m.nullCell then sortLoop metaVoid idl offset rest
      else if m.isEnclosure then
        (voidGroup metaVoid m.enclosureID).bind (fun grp =>
          (sortLoop metaVoid (labelGroup idl offset grp).2.1
              (labelGroup idl offset grp).2.2 rest).map (fun q =>
            (enclosureOpenDelim m.enclosureID :: (labelGroup idl offset grp).1
              ++ enclosureCloseDelim m.enclosureID :: q.1, q.2.1, q.2.2)))
      else
        (sortLoop metaVoid ((m.id, offset + 1) :: idl) (offset + 1) rest).map (fun q =>
          ({ m with label := some (offset + 1) } :: q.1, q.2.1, q.2.2))

/-- `sort_enclosure` before its final comment-rewriting loop (lines 782-838):
the main loop, the `VOID CELLS` banner and the labelled enclosure-0 void
group, together with the finished identity-to-label map. -/
def sortCore (metaList metaVoid : List GeounedSolid) (offSet : Nat) :
    Option (List GeounedSolid × List (Int × Nat)) :=
  (sortLoop metaVoid [(0, 0)] offSet metaList).bind (fun t =>
    (voidGroup metaVoid 0).map (fun g0 =>
      (t.1 ++ [voidDelim] ++ (labelGroup t.2.1 t.2.2 g0).1,
        (labelGroup t.2.1 t.2.2 g0).2.1)))

/-- Final loop of `sort_enclosure` (lines 840-845): rewrite the comments of
every void, non-enclosure cell through the finished identity-to-label map. -/
def rewritePass (idl : List (Int × Nat)) : List GeounedSolid → Option (List GeounedSolid)
  | [] => some []
  | m :: rest =>
      if !m.void || m.isEnclosure then
        (rewritePass idl rest).map (fun out => m :: out)
      else
        (update_comment idl m).bind (fun m' =>
          (rewritePass idl rest).map (fun out => m' :: out))

/-- Embedding of `sort_enclosure` (lines 782-846). -/
def sort_enclosure (metaList metaVoid : List GeounedSolid) (offSet : Nat) :
    Option (List GeounedSolid) :=
  (sortCore metaList metaVoid offSet).bind (fun q => rewritePass q.2 q.1)

theorem update_comment_spec (idl : List (Int × Nat)) (m m' : GeounedSolid)
    (h : update_comment idl m = some m') :
    m'.label = m.label ∧ m'.nullCell = m.nullCell ∧ m'.void = m.void ∧
      m'.isEnclosure = m.isEnclosure ∧ m'.commentInfo = m.commentInfo ∧
      ∀ c ids, m.commentInfo = some (c, some ids) →
        ∃ ls, ids.mapM (lookupLabel idl) = some ls ∧
          m'.comments = CommentVal.voidLine c ls := by
  cases hci : m.commentInfo with
  | none =>
      simp only [update_comment, hci, Option.some.injEq] at h
      subst h
      exact ⟨rfl, rfl, rfl, rfl, hci, fun c ids hc => absurd hc (by simp)⟩
  | some p =>
      obtain ⟨c0, oids⟩ := p
      cases oids with
      | none =>
          simp only [update_comment, hci, Option.some.injEq] at h
          subst h
          refine ⟨rfl, rfl, rfl, rfl, hci, fun c ids hc => ?_⟩
          simp at hc
      | some ids0 =>
          simp only [update_comment, hci] at h
          cases hmm : ids0.mapM (lookupLabel idl) with
          | none => rw [hmm] at h; simp at h
          | some ls =>
              rw [hmm] at h
              simp only [Option.map_some', Option.some.injEq] at h
              subst h
              refine ⟨rfl, rfl, rfl, rfl, rfl, fun c ids hc => ?_⟩
              · simp only [Option.some.injEq, Prod.mk.injEq] at hc
                obtain ⟨rfl, h2⟩ := hc
                obtain rfl : ids0 = ids := by simpa using h2
                exact ⟨ls, hmm, rfl⟩

theorem labelCells_spec :
    ∀ (l : List GeounedSolid) (offset : Nat) (idl : List (Int × Nat)),
      ∃ k, ((labelCells offset idl l).1).filterMap (fun m => m.label)
          = List.range' (offset + 1) k ∧
        (labelCells offset idl l).2.2 = offset + k ∧
        ∀ m' ∈ (labelCells offset idl l).1, ∃ m, m ∈ l ∧ ∃ j,
          m.nullCell = false ∧ m.isEnclosure = false ∧ m' = { m with label := some j } := by
  intro l
  induction l with
  | nil => intro offset idl; exact ⟨0, rfl, rfl, by simp [labelCells]⟩
  | cons m rest ih =>
      intro offset idl
      by_cases hskip : (m.nullCell || m.isEnclosure) = true
      · have hstep : labelCells offset idl (m :: rest) = labelCells offset idl rest := by
          simp only [labelCells, hskip, if_true]
        rw [hstep]
        obtain ⟨k, h1, h2, h3⟩ := ih offset idl
        refine ⟨k, h1, h2, fun m' hm' => ?_⟩
        obtain ⟨mm, hmm, hrest⟩ := h3 m' hm'
        exact ⟨mm, List.mem_cons_of_mem m hmm, hrest⟩
      · have hor : (m.nullCell || m.isEnclosure) = false := by
          cases hb : (m.nullCell || m.isEnclosure) with
          | false => rfl
          | true => exact absurd hb hskip
        have hnc : m.nullCell = false := by
          cases hx : m.nullCell with
          | false => rfl
          | true => rw [hx] at hor; simp at hor
        have hne : m.isEnclosure = false := by
          cases hx : m.isEnclosure with
          | false => rfl
          | true => rw [hx] at hor; simp at hor
        have hstep : labelCells offset idl (m :: rest)
            = ({ m with label := some (offset + 1) }
                  :: (labelCells (offset + 1) ((m.id, offset + 1) :: idl) rest).1,
                (labelCells (offset + 1) ((m.id, offset + 1) :: idl) rest).2.1,
                (labelCells (offset + 1) ((m.id, offset + 1) :: idl) rest).2.2) := by
          simp only [labelCells, hor, Bool.false_eq_true, if_false]
        rw [hstep]
        obtain ⟨k, h1, h2, h3⟩ := ih (offset + 1) ((m.id, offset + 1) :: idl)
        refine ⟨k + 1, ?_, ?_, ?_⟩
        · rw [List.filterMap_cons]
          simp only [h1, List.range'_succ]
        · simp only [h2]
          omega
        · intro m' hm'
          rcases List.mem_cons.mp hm' with rfl | hm''
          · exact ⟨m, List.mem_cons_self m rest, offset + 1, hnc, hne, rfl⟩
          · obtain ⟨mm, hmm, hrest⟩ := h3 m' hm''
            exact ⟨mm, List.mem_cons_of_mem m hmm, hrest⟩

theorem labelGroup_spec :
    ∀ (l : List GeounedSolid) (offset : Nat) (idl : List (Int × Nat)),
      ∃ k, ((labelGroup idl offset l).1).filterMap (fun m => m.label)
          = List.range' (offset + 1) k ∧
        (labelGroup idl offset l).2.2 = offset + k ∧
        ∀ m' ∈ (labelGroup idl offset l).1, ∃ m, m ∈ l ∧ ∃ j,
          m.nullCell = false ∧ m' = { m with label := some j } := by
  intro l
  induction l with
  | nil => intro offset idl; exact ⟨0, rfl, rfl, by simp [labelGroup]⟩
  | cons m rest ih =>
      intro offset idl
      by_cases hskip : m.nullCell = true
      · have hstep : labelGroup idl offset (m :: rest) = labelGroup idl offset rest := by
          simp only [labelGroup, hskip, if_true]
        rw [hstep]
        obtain ⟨k, h1, h2, h3⟩ := ih offset idl
        refine ⟨k, h1, h2, fun m' hm' => ?_⟩
        obtain ⟨mm, hmm, hrest⟩ := h3 m' hm'
        exact ⟨mm, List.mem_cons_of_mem m hmm, hrest⟩
      · have hnc : m.nullCell = false := eq_false_of_ne_true hskip
        have hstep : labelGroup idl offset (m :: rest)
            = ({ m with label := some (offset + 1) }
                  :: (labelGroup ((m.id, offset + 1) :: idl) (offset + 1) rest).1,
                (labelGroup ((m.id, offset + 1) :: idl) (offset + 1) rest).2.1,
                (labelGroup ((m.id, offset + 1) :: idl) (offset + 1) rest).2.2) := by
          simp only [labelGroup, hnc, if_false, Bool.false_eq_true]
        rw [hstep]
        obtain ⟨k, h1, h2, h3⟩ := ih (offset + 1) ((m.id, offset + 1) :: idl)
        refine ⟨k + 1, ?_, ?_, ?_⟩
        · rw [List.filterMap_cons]
          simp only [h1, List.range'_succ]
        · simp only [h2]
          omega
        · intro m' hm'
          rcases List.mem_cons.mp hm' with rfl | hm''
          · exact ⟨m, List.mem_cons_self m rest, offset + 1, hnc, rfl⟩
          · obtain ⟨mm, hmm, hrest⟩ := h3 m' hm''
            exact ⟨mm, List.mem_cons_of_mem m hmm, hrest⟩

theorem labelVoids_spec (idl : List (Int × Nat)) :
    ∀ (l : List GeounedSolid) (offset : Nat) (out : List GeounedSolid) (fin : Nat),
      labelVoids idl offset l = some (out, fin) →
      ∃ k, out.filterMap (fun m => m.label) = List.range' (offset + 1) k ∧
        fin = offset + k ∧
        ∀ m' ∈ out, ∃ m, m ∈ l ∧ ∃ j, m.nullCell = false ∧
          update_comment idl { m with label := some j } = some m' := by
  intro l
  induction l with
  | nil =>
      intro offset out fin h
      simp only [labelVoids, Option.some.injEq, Prod.mk.injEq] at h
      obtain ⟨rfl, rfl⟩ := h
      exact ⟨0, rfl, rfl, by simp⟩
  | cons m rest ih =>
      intro offset out fin h
      by_cases hskip : m.nullCell = true
      · rw [show labelVoids idl offset (m :: rest) = labelVoids idl offset rest by
          simp only [labelVoids, hskip, if_true]] at h
        obtain ⟨k, h1, h2, h3⟩ := ih offset out fin h
        refine ⟨k, h1, h2, fun m' hm' => ?_⟩
        obtain ⟨mm, hmm, hrest⟩ := h3 m' hm'
        exact ⟨mm, List.mem_cons_of_mem m hmm, hrest⟩
      · have hnc : m.nullCell = false := eq_false_of_ne_true hskip
        rw [show labelVoids idl offset (m :: rest)
            = (update_comment idl { m with label := some (offset + 1) }).bind (fun m' =>
                (labelVoids idl (offset + 1) rest).map (fun q => (m' :: q.1, q.2))) by
          simp only [labelVoids, hnc, if_false, Bool.false_eq_true]] at h
        cases huc : update_comment idl { m with label := some (offset + 1) } with
        | none => rw [huc] at h; simp at h
        | some m0 =>
            rw [huc] at h
            cases hlv : labelVoids idl (offset + 1) rest with
            | none => rw [hlv] at h; simp at h
            | some p =>
                obtain ⟨out', fin'⟩ := p
                rw [hlv] at h
                simp only [Option.some_bind, Option.map_some', Option.some.injEq,
                  Prod.mk.injEq] at h
                obtain ⟨rfl, rfl⟩ := h
                obtain ⟨k, h1, h2, h3⟩ := ih (offset + 1) out' fin' hlv
                have hm0label : m0.label = some (offset + 1) := by
                  have := (update_comment_spec idl _ m0 huc).1
                  simpa using this
                refine ⟨k + 1, ?_, ?_, ?_⟩
                · rw [List.filterMap_cons]
                  simp only [hm0label, h1, List.range'_succ]
                · simp only [h2]
                  omega
                · intro m' hm'
                  rcases List.mem_cons.mp hm' with rfl | hm''
                  · exact ⟨m, List.mem_cons_self m rest, offset + 1, hnc, huc⟩
                  · obtain ⟨mm, hmm, hrest⟩ := h3 m' hm''
                    exact ⟨mm, List.mem_cons_of_mem m hmm, hrest⟩

theorem forall₂_mem_right {P : GeounedSolid → GeounedSolid → Prop} :
    ∀ {L out : List GeounedSolid}, List.Forall₂ P L out →
      ∀ m' ∈ out, ∃ m ∈ L, P m m' := by
  intro L out h
  induction h with
  | nil => simp
  | cons hp _ ih =>
      intro m' hm'
      rcases List.mem_cons.mp hm' with rfl | hm''
      · exact ⟨_, List.mem_cons_self _ _, hp⟩
      · obtain ⟨m, hm, hpm⟩ := ih m' hm''
        exact ⟨m, List.mem_cons_of_mem _ hm, hpm⟩

theorem filterMap_label_of_forall₂ :
    ∀ {L out : List GeounedSolid},
      List.Forall₂ (fun m m' => m'.label = m.label) L out →
      out.filterMap (fun m => m.label) = L.filterMap (fun m => m.label) := by
  intro L out h
  induction h with
  | nil => rfl
  | cons hp _ ih =>
      rw [List.filterMap_cons, List.filterMap_cons, hp, ih]

theorem voidGroup_subset {metaVoid : List GeounedSolid} {k : Int} {g : List GeounedSolid}
    (h : voidGroup metaVoid k = some g) : ∀ e ∈ g, e ∈ metaVoid := by
  intro e he
  simp only [voidGroup] at h
  by_cases hemp : (metaVoid.filter (fun v => v.enclosureID == k)).isEmpty = true
  · rw [if_pos hemp] at h
    simp at h
  · rw [if_neg hemp] at h
    simp only [Option.some.injEq] at h
    subst h
    exact List.mem_of_mem_filter he

theorem sortLoop_spec (metaVoid : List GeounedSolid) :
    ∀ (l : List GeounedSolid) (idl : List (Int × Nat)) (offset : Nat)
      (out : List GeounedSolid) (idl2 : List (Int × Nat)) (fin : Nat),
      sortLoop metaVoid idl offset l = some (out, idl2, fin) →
      ∃ k, out.filterMap (fun m => m.label) = List.range' (offset + 1) k ∧
        fin = offset + k ∧
        ∀ m' ∈ out,
          (∃ c, m' = mkDelimiter c) ∨
          (∃ m, m ∈ l ∧ ∃ j, m.nullCell = false ∧ m.isEnclosure = false ∧
            m' = { m with label := some j }) ∨
          (∃ e, e ∈ metaVoid ∧ ∃ j, e.nullCell = false ∧
            m' = { e with label := some j }) := by
  intro l
  induction l with
  | nil =>
      intro idl offset out idl2 fin h
      simp only [sortLoop, Option.some.injEq, Prod.mk.injEq] at h
      obtain ⟨rfl, -, rfl⟩ := h
      exact ⟨0, rfl, rfl, by simp⟩
  | cons m rest ih =>
      intro idl offset out idl2 fin h
      by_cases hnull : m.nullCell = true
      · rw [show sortLoop metaVoid idl offset (m :: rest) = sortLoop metaVoid idl offset rest
          by simp only [sortLoop, hnull, if_true]] at h
        obtain ⟨k, h1, h2, h3⟩ := ih idl offset out idl2 fin h
        refine ⟨k, h1, h2, fun m' hm' => ?_⟩
        rcases h3 m' hm' with hd | ⟨mm, hmm, hrest⟩ | hv
        · exact Or.inl hd
        · exact Or.inr (Or.inl ⟨mm, List.mem_cons_of_mem m hmm, hrest⟩)
        · exact Or.inr (Or.inr hv)
      · have hnc : m.nullCell = false := eq_false_of_ne_true hnull
        by_cases hencl : m.isEnclosure = true
        · rw [show sortLoop metaVoid idl offset (m :: rest)
              = (voidGroup metaVoid m.enclosureID).bind (fun grp =>
                  (sortLoop metaVoid (labelGroup idl offset grp).2.1
                      (labelGroup idl offset grp).2.2 rest).map (fun q =>
                    (enclosureOpenDelim m.enclosureID :: (labelGroup idl offset grp).1
                      ++ enclosureCloseDelim m.enclosureID :: q.1, q.2.1, q.2.2)))
            by simp only [sortLoop, hnc, Bool.false_eq_true, if_false, hencl, if_true]] at h
          cases hg : voidGroup metaVoid m.enclosureID with
          | none => rw [hg] at h; simp at h
          | some grp =>
              rw [hg, Option.some_bind] at h
              cases hsl : sortLoop metaVoid (labelGroup idl offset grp).2.1
                  (labelGroup idl offset grp).2.2 rest with
              | none => rw [hsl] at h; simp at h
              | some p =>
                  obtain ⟨out', idl2', fin'⟩ := p
                  rw [hsl] at h
                  simp only [Option.map_some', Option.some.injEq, Prod.mk.injEq] at h
                  obtain ⟨rfl, rfl, rfl⟩ := h
                  obtain ⟨k1, hg1, hg2, hg3⟩ := labelGroup_spec grp offset idl
                  rw [hg2] at hsl
                  obtain ⟨k2, hs1, hs2, hs3⟩ := ih _ (offset + k1) out' idl2' fin' hsl
                  refine ⟨k1 + k2, ?_, ?_, ?_⟩
                  · rw [List.filterMap_append, List.filterMap_cons, List.filterMap_cons]
                    have hopen : (enclosureOpenDelim m.enclosureID).label = none := rfl
                    have hclose : (enclosureCloseDelim m.enclosureID).label = none := rfl
                    rw [hopen, hclose]
                    simp only [hg1, hs1]
                    rw [show offset + k1 + 1 = offset + 1 + k1 from by omega,
                      List.range'_append_1]
                    rw [show k2 + k1 = k1 + k2 from by omega]
                  · omega
                  · intro m' hm'
                    rcases List.mem_append.mp hm' with hm1 | hm2
                    · rcases List.mem_cons.mp hm1 with rfl | hgrp
                      · exact Or.inl ⟨CommentVal.enclosureLine m.enclosureID false, rfl⟩
                      · obtain ⟨e, he, j, hej, hrw⟩ := hg3 m' hgrp
                        exact Or.inr (Or.inr ⟨e, voidGroup_subset hg e he, j, hej, hrw⟩)
                    · rcases List.mem_cons.mp hm2 with rfl | hm4
                      · exact Or.inl ⟨CommentVal.enclosureLine m.enclosureID true, rfl⟩
                      · rcases hs3 m' hm4 with hd | ⟨mm, hmm, hrest⟩ | hv
                        · exact Or.inl hd
                        · exact Or.inr (Or.inl ⟨mm, List.mem_cons_of_mem m hmm, hrest⟩)
                        · exact Or.inr (Or.inr hv)
        · have hne : m.isEnclosure = false := eq_false_of_ne_true hencl
          rw [show sortLoop metaVoid idl offset (m :: rest)
              = (sortLoop metaVoid ((m.id, offset + 1) :: idl) (offset + 1) rest).map (fun q =>
                  ({ m with label := some (offset + 1) } :: q.1, q.2.1, q.2.2))
            by simp only [sortLoop, hnc, Bool.false_eq_true, if_false, hne]] at h
          cases hsl : sortLoop metaVoid ((m.id, offset + 1) :: idl) (offset + 1) rest with
          | none => rw [hsl] at h; simp at h
          | some p =>
              obtain ⟨out', idl2', fin'⟩ := p
              rw [hsl] at h
              simp only [Option.map_some', Option.some.injEq, Prod.mk.injEq] at h
              obtain ⟨rfl, rfl, rfl⟩ := h
              obtain ⟨k, hs1, hs2, hs3⟩ := ih _ (offset + 1) out' idl2' fin' hsl
              refine ⟨k + 1, ?_, ?_, ?_⟩
              · rw [List.filterMap_cons]
                simp only [hs1, List.range'_succ]
              · omega
              · intro m' hm'
                rcases List.mem_cons.mp hm' with rfl | hm2
                · exact Or.inr (Or.inl ⟨m, List.mem_cons_self m rest, offset + 1, hnc, hne, rfl⟩)
                · rcases hs3 m' hm2 with hd | ⟨mm, hmm, hrest⟩ | hv
                  · exact Or.inl hd
                  · exact Or.inr (Or.inl ⟨mm, List.mem_cons_of_mem m hmm, hrest⟩)
                  · exact Or.inr (Or.inr hv)

theorem sortCore_spec (metaList metaVoid : List GeounedSolid) (offset : Nat)
    (newMeta : List GeounedSolid) (idl : List (Int × Nat))
    (h : sortCore metaList metaVoid offset = some (newMeta, idl)) :
    ∃ k, newMeta.filterMap (fun m => m.label) = List.range' (offset + 1) k ∧
      ∀ m' ∈ newMeta,
        (∃ c, m' = mkDelimiter c) ∨
        (∃ m, m ∈ metaList ∧ ∃ j, m.nullCell = false ∧ m.isEnclosure = false ∧
          m' = { m with label := some j }) ∨
        (∃ e, e ∈ metaVoid ∧ ∃ j, e.nullCell = false ∧
          m' = { e with label := some j }) := by
  simp only [sortCore] at h
  cases hsl : sortLoop metaVoid [(0, 0)] offset metaList with
  | none => rw [hsl] at h; simp at h
  | some p =>
      obtain ⟨nm0, idl0, icount⟩ := p
      rw [hsl, Option.some_bind] at h
      cases hg : voidGroup metaVoid 0 with
      | none => rw [hg] at h; simp at h
      | some g0 =>
          rw [hg] at h
          simp only [Option.map_some', Option.some.injEq, Prod.mk.injEq] at h
          obtain ⟨rfl, -⟩ := h
          obtain ⟨k1, hs1, hs2, hs3⟩ := sortLoop_spec metaVoid metaList [(0, 0)] offset
            nm0 idl0 icount hsl
          obtain ⟨k2, hg1, _, hg3⟩ := labelGroup_spec g0 icount idl0
          refine ⟨k1 + k2, ?_, ?_⟩
          · rw [List.filterMap_append, List.filterMap_append]
            have hdl : ([voidDelim] : List GeounedSolid).filterMap (fun m => m.label)
                = [] := rfl
            rw [hdl, hs1, hg1, hs2]
            simp only [List.append_nil]
            rw [show offset + k1 + 1 = offset + 1 + k1 from by omega, List.range'_append_1]
            rw [show k2 + k1 = k1 + k2 from by omega]
          · intro m' hm'
            rcases List.mem_append.mp hm' with hm1 | hm2
            · rcases List.mem_append.mp hm1 with hm3 | hm4
              · exact hs3 m' hm3
              · rw [List.mem_singleton] at hm4
                exact Or.inl ⟨CommentVal.voidCellsLine, hm4⟩
            · obtain ⟨e, he, j, hej, hrw⟩ := hg3 m' hm2
              exact Or.inr (Or.inr ⟨e, voidGroup_subset hg e he, j, hej, hrw⟩)

theorem rewritePass_spec (idl : List (Int × Nat)) :
    ∀ (l : List GeounedSolid) (out : List GeounedSolid),
      rewritePass idl l = some out →
      List.Forall₂ (fun m m' =>
        ((!m.void || m.isEnclosure) = true ∧ m' = m) ∨
          (m.void = true ∧ m.isEnclosure = false ∧ update_comment idl m = some m')) l out := by
  intro l
  induction l with
  | nil =>
      intro out h
      simp only [rewritePass, Option.some.injEq] at h
      subst h
      exact List.Forall₂.nil
  | cons m rest ih =>
      intro out h
      by_cases hguard : (!m.void || m.isEnclosure) = true
      · rw [show rewritePass idl (m :: rest)
            = (rewritePass idl rest).map (fun out => m :: out)
          by simp only [rewritePass, hguard, if_true]] at h
        cases hrp : rewritePass idl rest with
        | none => rw [hrp] at h; simp at h
        | some out' =>
            rw [hrp] at h
            simp only [Option.map_some', Option.some.injEq] at h
            subst h
            exact List.Forall₂.cons (Or.inl ⟨hguard, rfl⟩) (ih out' hrp)
      · have hg : (!m.void || m.isEnclosure) = false := by
          cases hb : (!m.void || m.isEnclosure) with
          | false => rfl
          | true => exact absurd hb hguard
        have hv : m.void = true := by
          cases hx : m.void with
          | true => rfl
          | false => rw [hx] at hg; simp at hg
        have hie : m.isEnclosure = false := by
          cases hx : m.isEnclosure with
          | false => rfl
          | true => rw [hx] at hg; simp at hg
        rw [show rewritePass idl (m :: rest)
            = (update_comment idl m).bind (fun m' =>
                (rewritePass idl rest).map (fun out => m' :: out))
          by simp only [rewritePass, hg, Bool.false_eq_true, if_false]] at h
        cases huc : update_comment idl m with
        | none => rw [huc] at h; simp at h
        | some m0 =>
            rw [huc, Option.some_bind] at h
            cases hrp : rewritePass idl rest with
            | none => rw [hrp] at h; simp at h
            | some out' =>
                rw [hrp] at h
                simp only [Option.map_some', Option.some.injEq] at h
                subst h
                exact List.Forall₂.cons (Or.inr ⟨hv, hie, huc⟩) (ih out' hrp)

/-- C1: on both finalization paths — the flat path of `start` and the
enclosure-grouped `sort_enclosure` path — every cell marked NullCell is
dropped from the output and never labelled: the finalized list contains no
NullCell, the labels read off in emission order are exactly the consecutive
integers starting at `cellOffSet + 1`, and the only unlabelled records are
the delimiter records. -/
theorem prop_C1 :
    (∀ (metaList metaVoid : List GeounedSolid) (offset : Nat) (out : List GeounedSolid),
        finalizeFlat metaList metaVoid offset = some out →
        (∀ m ∈ out, m.nullCell = false) ∧
          (∃ n, out.filterMap (fun m => m.label) = List.range' (offset + 1) n) ∧
          ∀ m ∈ out, m.label = none → ∃ c, m = mkDelimiter c) ∧
      ∀ (metaList metaVoid : List GeounedSolid) (offset : Nat) (out : List GeounedSolid),
        sort_enclosure metaList metaVoid offset = some out →
        (∀ m ∈ out, m.nullCell = false) ∧
          (∃ n, out.filterMap (fun m => m.label) = List.range' (offset + 1) n) ∧
          ∀ m ∈ out, m.label = none → ∃ c, m = mkDelimiter c := by
  constructor
  · intro metaList metaVoid offset out h
    simp only [finalizeFlat] at h
    cases hlv : labelVoids (labelCells offset [(0, 0)] metaList).2.1
        (labelCells offset [(0, 0)] metaList).2.2 metaVoid with
    | none => rw [hlv] at h; simp at h
    | some q =>
        obtain ⟨voids, fin⟩ := q
        rw [hlv] at h
        simp only [Option.map_some', Option.some.injEq] at h
        subst h
        obtain ⟨k1, hc1, hc2, hc3⟩ := labelCells_spec metaList offset [(0, 0)]
        rw [hc2] at hlv
        obtain ⟨k2, hv1, hv2, hv3⟩ := labelVoids_spec _ metaVoid (offset + k1) voids fin hlv
        refine ⟨?_, ⟨k1 + k2, ?_⟩, ?_⟩
        · intro m' hm'
          rcases List.mem_append.mp hm' with hm1 | hm2
          · rcases List.mem_append.mp hm1 with hm3 | hm4
            · obtain ⟨mm, _, j, hmnull, _, rfl⟩ := hc3 m' hm3
              exact hmnull
            · rw [List.mem_singleton] at hm4
              rw [hm4]
              rfl
          · obtain ⟨mm, _, j, hmnull, huc⟩ := hv3 m' hm2
            have hspec := update_comment_spec _ _ m' huc
            rw [hspec.2.1]
            exact hmnull
        · rw [List.filterMap_append, List.filterMap_append]
          have hdl : ([voidDelim] : List GeounedSolid).filterMap (fun m => m.label)
              = [] := rfl
          rw [hdl, hc1, hv1]
          simp only [List.append_nil]
          rw [show offset + k1 + 1 = offset + 1 + k1 from by omega, List.range'_append_1]
          rw [show k2 + k1 = k1 + k2 from by omega]
        · intro m' hm' hnone
          rcases List.mem_append.mp hm' with hm1 | hm2
          · rcases List.mem_append.mp hm1 with hm3 | hm4
            · obtain ⟨mm, _, j, _, _, rfl⟩ := hc3 m' hm3
              exact absurd hnone (by simp)
            · rw [List.mem_singleton] at hm4
              exact ⟨CommentVal.voidCellsLine, hm4⟩
          · obtain ⟨mm, _, j, _, huc⟩ := hv3 m' hm2
            have hspec := update_comment_spec _ _ m' huc
            rw [hspec.1] at hnone
            exact absurd hnone (by simp)
  · intro metaList metaVoid offset out h
    simp only [sort_enclosure] at h
    cases hsc : sortCore metaList metaVoid offset with
    | none => rw [hsc] at h; simp at h
    | some q =>
        obtain ⟨nm, idl⟩ := q
        rw [hsc, Option.some_bind] at h
        obtain ⟨k, hk1, hk3⟩ := sortCore_spec metaList metaVoid offset nm idl hsc
        have hf2 := rewritePass_spec idl nm out h
        have hnmnull : ∀ m ∈ nm, m.nullCell = false := by
          intro m hm
          rcases hk3 m hm with ⟨c, rfl⟩ | ⟨mm, _, j, hmnull, _, rfl⟩ | ⟨e, _, j, hej, rfl⟩
          · rfl
          · exact hmnull
          · exact hej
        have hlab : List.Forall₂ (fun m m' => m'.label = m.label) nm out := by
          refine hf2.imp ?_
          intro a b hp
          rcases hp with ⟨-, rfl⟩ | ⟨-, -, huc⟩
          · rfl
          · exact (update_comment_spec idl a b huc).1
        refine ⟨?_, ⟨k, ?_⟩, ?_⟩
        · intro m' hm'
          obtain ⟨m, hm, hp⟩ := forall₂_mem_right hf2 m' hm'
          rcases hp with ⟨-, rfl⟩ | ⟨-, -, huc⟩
          · exact hnmnull m' hm
          · rw [(update_comment_spec idl m m' huc).2.1]
            exact hnmnull m hm
        · rw [filterMap_label_of_forall₂ hlab, hk1]
        · intro m' hm' hnone
          obtain ⟨m, hm, hp⟩ := forall₂_mem_right hf2 m' hm'
          have hmlab : m.label = none := by
            rcases hp with ⟨-, rfl⟩ | ⟨-, -, huc⟩
            · exact hnone
            · rw [← (update_comment_spec idl m m' huc).1]
              exact hnone
          have hmdelim : ∃ c, m = mkDelimiter c := by
            rcases hk3 m hm with hd | ⟨mm, _, j, _, _, rfl⟩ | ⟨e, _, j, _, rfl⟩
            · exact hd
            · exact absurd hmlab (by simp)
            · exact absurd hmlab (by simp)
          obtain ⟨c, rfl⟩ := hmdelim
          rcases hp with ⟨-, rfl⟩ | ⟨hvd, -, -⟩
          · exact ⟨c, rfl⟩
          · exact absurd hvd (by simp [mkDelimiter])

/-- A concrete void cell whose cross-reference records solid identity 1. -/
def demoVoid31 : GeounedSolid :=
  { demoCell 31 with void := true, commentInfo := some ("c", some [1]) }

/-- The labelled, comment-rewritten form of `demoVoid31`. -/
def demoVoid31Out : GeounedSolid :=
  { demoVoid31 with label := some 2, comments := CommentVal.voidLine "c" [1] }

/-- What the flat path produces from `[demoCell 1]`, `[demoVoid31]`, offset 0. -/
def demoFlatOut : List GeounedSolid :=
  [{ demoCell 1 with label := some 1 }, voidDelim, demoVoid31Out]

/-- A concrete enclosure entry with enclosure id 7. -/
def demoEncl : GeounedSolid :=
  { demoCell 2 with isEnclosure := true, enclosureID := 7 }

/-- A concrete void cell of enclosure group 7, referencing solid identity 1. -/
def demoGV : GeounedSolid :=
  { demoCell 20 with void := true, enclosureID := 7, commentInfo := some ("g", some [1]) }

/-- A concrete void cell of the outer group 0. -/
def demoV0 : GeounedSolid := { demoCell 21 with void := true }

/-- The labelled, comment-rewritten form of `demoGV`. -/
def demoGVOut : GeounedSolid :=
  { demoGV with label := some 2, comments := CommentVal.voidLine "g" [1] }

/-- What `sortCore` produces (before comment rewriting) from
`[demoCell 1, demoEncl]`, `[demoGV, demoV0]`, offset 0. -/
def demoSortNm : List GeounedSolid :=
  [{ demoCell 1 with label := some 1 }, enclosureOpenDelim 7,
    { demoGV with label := some 2 }, enclosureCloseDelim 7, voidDelim,
    { demoV0 with label := some 3 }]

/-- What `sort_enclosure` produces from `[demoCell 1, demoEncl]`,
`[demoGV, demoV0]`, offset 0. -/
def demoSortOut : List GeounedSolid :=
  [{ demoCell 1 with label := some 1 }, enclosureOpenDelim 7, demoGVOut,
    enclosureCloseDelim 7, voidDelim, { demoV0 with label := some 3 }]

/-- Evaluation of C1 on concrete runs of both finalization paths: the
surviving cells are labelled 1, 2 on the flat run and 1, 2, 3 on the grouped
run, all consecutively from `startCell`, and the unlabelled `VOID CELLS`
banner is a delimiter record. -/
theorem prop_C1_witness :
    ({ demoCell 1 with label := some 1 }).nullCell = false ∧
      (∃ n, demoFlatOut.filterMap (fun m => m.label) = List.range' 1 n) ∧
      (∃ c, voidDelim = mkDelimiter c) ∧
      (∃ n, demoSortOut.filterMap (fun m => m.label) = List.range' 1 n) :=
  ⟨(prop_C1.1 [demoCell 1] [demoVoid31] 0 demoFlatOut rfl).1
      { demoCell 1 with label := some 1 } (by decide),
    (prop_C1.1 [demoCell 1] [demoVoid31] 0 demoFlatOut rfl).2.1,
    (prop_C1.1 [demoCell 1] [demoVoid31] 0 demoFlatOut rfl).2.2 voidDelim (by decide) rfl,
    (prop_C1.2 [demoCell 1, demoEncl] [demoGV, demoV0] 0 demoSortOut rfl).2.1⟩

/-- C4: after labels are assigned, every finalized cell whose cross-reference
comment records a set of identities has its comment rewritten through the
identity-to-label map built during the numbering pass, on both paths.  Only
void generation records cross-references, so on the inputs the pipeline
produces, solid entries carry none and every entry of the void list is a
void, non-enclosure cell; under those facts every carrier of a recorded
identity set in the output is rewritten — none is skipped. -/
theorem prop_C4 :
    (∀ (metaList metaVoid : List GeounedSolid) (offset : Nat) (out : List GeounedSolid),
        (∀ m ∈ metaList, m.commentInfo = none) →
        finalizeFlat metaList metaVoid offset = some out →
        ∀ m' ∈ out, ∀ c ids, m'.commentInfo = some (c, some ids) →
          ∃ ls, ids.mapM (lookupLabel (labelCells offset [(0, 0)] metaList).2.1) = some ls ∧
            m'.comments = CommentVal.voidLine c ls) ∧
      ∀ (metaList metaVoid : List GeounedSolid) (offset : Nat)
        (nm : List GeounedSolid) (idl : List (Int × Nat)) (out : List GeounedSolid),
        (∀ m ∈ metaList, m.commentInfo = none) →
        (∀ v ∈ metaVoid, v.void = true ∧ v.isEnclosure = false) →
        sortCore metaList metaVoid offset = some (nm, idl) →
        rewritePass idl nm = some out →
        sort_enclosure metaList metaVoid offset = some out ∧
          ∀ m' ∈ out, ∀ c ids, m'.commentInfo = some (c, some ids) →
            ∃ ls, ids.mapM (lookupLabel idl) = some ls ∧
              m'.comments = CommentVal.voidLine c ls := by
  constructor
  · intro metaList metaVoid offset out hsolids h
    simp only [finalizeFlat] at h
    cases hlv : labelVoids (labelCells offset [(0, 0)] metaList).2.1
        (labelCells offset [(0, 0)] metaList).2.2 metaVoid with
    | none => rw [hlv] at h; simp at h
    | some q =>
        obtain ⟨voids, fin⟩ := q
        rw [hlv] at h
        simp only [Option.map_some', Option.some.injEq] at h
        subst h
        obtain ⟨k1, hc1, hc2, hc3⟩ := labelCells_spec metaList offset [(0, 0)]
        obtain ⟨k2, hv1, hv2, hv3⟩ := labelVoids_spec _ metaVoid _ voids fin hlv
        intro m' hm' c ids hm'ci
        rcases List.mem_append.mp hm' with hm1 | hm2
        · rcases List.mem_append.mp hm1 with hm3 | hm4
          · obtain ⟨mm, hmm, j, _, _, rfl⟩ := hc3 m' hm3
            have hci2 : mm.commentInfo = some (c, some ids) := hm'ci
            rw [hsolids mm hmm] at hci2
            cases hci2
          · rw [List.mem_singleton] at hm4
            subst hm4
            simp [voidDelim, mkDelimiter] at hm'ci
        · obtain ⟨mm, hmm, j, _, huc⟩ := hv3 m' hm2
          have hspec := update_comment_spec _ _ m' huc
          have hlabci : ({ mm with label := some j }).commentInfo = some (c, some ids) := by
            rw [← hspec.2.2.2.2.1]
            exact hm'ci
          exact hspec.2.2.2.2.2 c ids hlabci
  · intro metaList metaVoid offset nm idl out hsolids hvoid hsc hrp
    constructor
    · simp only [sort_enclosure]
      rw [hsc, Option.some_bind]
      exact hrp
    · obtain ⟨k, hk1, hk3⟩ := sortCore_spec metaList metaVoid offset nm idl hsc
      have hf2 := rewritePass_spec idl nm out hrp
      intro m' hm' c ids hm'ci
      obtain ⟨m, hm, hp⟩ := forall₂_mem_right hf2 m' hm'
      rcases hp with ⟨hguard, rfl⟩ | ⟨-, -, huc⟩
      · rcases hk3 m' hm with ⟨cd, rfl⟩ | ⟨mm, hmm, j, _, _, rfl⟩ | ⟨e, he, j, _, rfl⟩
        · simp [mkDelimiter] at hm'ci
        · have hci2 : mm.commentInfo = some (c, some ids) := hm'ci
          rw [hsolids mm hmm] at hci2
          cases hci2
        · obtain ⟨hev, hee⟩ := hvoid e he
          have : (!({ e with label := some j }).void
              || ({ e with label := some j }).isEnclosure) = false := by
            show (!e.void || e.isEnclosure) = false
            rw [hev, hee]
            rfl
          rw [this] at hguard
          cases hguard
      · have hspec := update_comment_spec idl m m' huc
        have hmci : m.commentInfo = some (c, some ids) := by
          rw [← hspec.2.2.2.2.1]
          exact hm'ci
        exact hspec.2.2.2.2.2 c ids hmci

/-- Evaluation of C4 on the same concrete runs as C1: in both runs the void
cell whose cross-reference records solid identity 1 ends up with its comment
rewritten through the identity-to-label map to that solid's final label. -/
theorem prop_C4_witness :
    (∃ ls, ([1] : List Int).mapM (lookupLabel (labelCells 0 [(0, 0)] [demoCell 1]).2.1)
          = some ls ∧ demoVoid31Out.comments = CommentVal.voidLine "c" ls) ∧
      sort_enclosure [demoCell 1, demoEncl] [demoGV, demoV0] 0 = some demoSortOut ∧
        ∃ ls, ([1] : List Int).mapM (lookupLabel [(21, 3), (20, 2), (1, 1), (0, 0)])
            = some ls ∧ demoGVOut.comments = CommentVal.voidLine "g" ls :=
  ⟨prop_C4.1 [demoCell 1] [demoVoid31] 0 demoFlatOut (by decide) rfl
      demoVoid31Out (by decide) "c" [1] rfl,
    (prop_C4.2 [demoCell 1, demoEncl] [demoGV, demoV0] 0 demoSortNm
      [(21, 3), (20, 2), (1, 1), (0, 0)] demoSortOut (by decide) (by decide) rfl rfl).1,
    (prop_C4.2 [demoCell 1, demoEncl] [demoGV, demoV0] 0 demoSortNm
      [(21, 3), (20, 2), (1, 1), (0, 0)] demoSortOut (by decide) (by decide) rfl rfl).2
      demoGVOut (by decide) "g" [1] rfl⟩

/-! ## Pipeline stage order (`start`, lines 403-611)

The observable stages of one run of `start`, in the order the statements of
the source execute them, as a trace parameterised by the option and settings
flags that guard each block. -/

/-- The pipeline stages of `start`. -/
inductive Stage where
  | facetTranslate
  | decomposeSolids
  | decomposeEnclosures
  | buildCells
  | buildEnclosures
  | voidGeneration
  | simplifyFull
  | numbering
  | coneProcessing
deriving DecidableEq, Repr

/-- The flags of `start` that guard its stage blocks: `options.Facets`,
`settings.voidGen`, whether `enclosure_list` is non-empty, and whether
`settings.simplify == "full"`. -/
structure StartConfig where
  facets : Bool
  voidGen : Bool
  hasEnclosures : Bool
  simplifyFull : Bool
deriving DecidableEq, Repr

/-- Embedding of the statement order of `start` (lines 428-605): solid
decomposition and cell building (or the facet translation, lines 464-475),
enclosure decomposition and building (lines 434-435, 482-496), void
generation (lines 500-524), the optional full simplification pass (lines
527-542), numbering (lines 549-592) and cone processing (lines 596-605). -/
def startTrace (c : StartConfig) : List Stage :=
  (if !c.facets then
      [Stage.decomposeSolids]
        ++ (if c.voidGen && c.hasEnclosures then [Stage.decomposeEnclosures] else [])
        ++ [Stage.buildCells]
    else
      [Stage.facetTranslate]
        ++ (if c.voidGen && c.hasEnclosures then [Stage.decomposeEnclosures] else []))
    ++ (if c.voidGen && c.hasEnclosures then [Stage.buildEnclosures] else [])
    ++ (if c.voidGen then [Stage.voidGeneration] else [])
    ++ (if c.simplifyFull then [Stage.simplifyFull] else [])
    ++ [Stage.numbering, Stage.coneProcessing]

/-- The indices of a stage's occurrences in a trace. -/
def stagePositions (tr : List Stage) (s : Stage) : List Nat :=
  (tr.enum.filter (fun p => p.2 == s)).map Prod.fst

/-- Every occurrence of `s` precedes every occurrence of `t` in `tr`. -/
def allBeforeB (tr : List Stage) (s t : Stage) : Bool :=
  (stagePositions tr s).all (fun i => (stagePositions tr t).all (fun j => decide (i < j)))

/-- The stage ordering asserted by the specification: building (and the
registry population it performs) before simplification, all simplification
before void generation, void generation before numbering and cone
patching. -/
def specStageOrder (c : StartConfig) : Bool :=
  allBeforeB (startTrace c) Stage.decomposeSolids Stage.simplifyFull
    && allBeforeB (startTrace c) Stage.buildCells Stage.simplifyFull
    && allBeforeB (startTrace c) Stage.simplifyFull Stage.voidGeneration
    && allBeforeB (startTrace c) Stage.voidGeneration Stage.numbering
    && allBeforeB (startTrace c) Stage.voidGeneration Stage.coneProcessing

/-- The stage ordering the code actually guarantees: building before void
generation and before simplification; void generation before the (optional)
full simplification pass — not after it; and both before numbering, which
precedes cone processing. -/
def codeStageOrder (c : StartConfig) : Bool :=
  allBeforeB (startTrace c) Stage.decomposeSolids Stage.buildCells
    && allBeforeB (startTrace c) Stage.decomposeSolids Stage.simplifyFull
    && allBeforeB (startTrace c) Stage.buildCells Stage.simplifyFull
    && allBeforeB (startTrace c) Stage.buildCells Stage.voidGeneration
    && allBeforeB (startTrace c) Stage.facetTranslate Stage.voidGeneration
    && allBeforeB (startTrace c) Stage.facetTranslate Stage.simplifyFull
    && allBeforeB (startTrace c) Stage.decomposeEnclosures Stage.voidGeneration
    && allBeforeB (startTrace c) Stage.buildEnclosures Stage.voidGeneration
    && allBeforeB (startTrace c) Stage.voidGeneration Stage.simplifyFull
    && allBeforeB (startTrace c) Stage.simplifyFull Stage.numbering
    && allBeforeB (startTrace c) Stage.voidGeneration Stage.numbering
    && allBeforeB (startTrace c) Stage.voidGeneration Stage.coneProcessing
    && allBeforeB (startTrace c) Stage.numbering Stage.coneProcessing

/-- C3 counterexample: with `voidGen = true` and `simplify = "full"` (and no
facet mode), `start` runs void generation *before* the simplification pass,
so the claimed order "all simplification completes before void generation
begins" fails; the trace even shows void generation strictly before
simplification. -/
theorem prop_C3_counterexample :
    specStageOrder ⟨false, true, false, true⟩ = false ∧
      allBeforeB (startTrace ⟨false, true, false, true⟩)
        Stage.voidGeneration Stage.simplifyFull = true := by
  constructor
  · rfl
  · rfl

/-- C3, amended: in every configuration of `start`, registry population and
cell building complete before void generation and before any simplification;
when `simplify = "full"`, the simplification pass runs after void generation
completes (not before it); and void generation and simplification complete
before final numbering, which precedes cone-plane patching. -/
theorem prop_C3_amended : ∀ c : StartConfig, codeStageOrder c = true := by
  intro c
  obtain ⟨f, v, e, s⟩ := c
  cases f <;> cases v <;> cases e <;> cases s <;> rfl

/-- Evaluation of the amended C3 ordering at the configuration of the
counterexample run. -/
theorem prop_C3_witness : codeStageOrder ⟨false, true, false, true⟩ = true :=
  prop_C3_amended ⟨false, true, false, true⟩

end Geouned
